import Mathlib

/-!
Verification of `graphDescend` (src/graph-descend.js).

The JavaScript function builds a MongoDB aggregation expression; evaluating
that expression against one input document runs a bounded breadth-first
worklist fold.  We embed the evaluated semantics of the generated expression:
BSON values become `BVal`, the `$reduce` accumulator becomes `AccState`, and
each aggregation operator is translated to the corresponding pure function.
-/

/-- BSON-like values flowing through the generated aggregation expression.
Numbers are modelled as integers (`$$this` iteration indices, `_depth`
counters and document payload numbers are all integral here). -/
inductive BVal where
  | null : BVal
  | bool : Bool → BVal
  | int : Int → BVal
  | str : String → BVal
  | arr : List BVal → BVal
  | doc : List (String × BVal) → BVal
deriving Repr

mutual

/-- Structural equality test for `BVal`. -/
def beqV : BVal → BVal → Bool
  | .null, .null => true
  | .bool a, .bool b => a = b
  | .int a, .int b => a = b
  | .str a, .str b => a = b
  | .arr a, .arr b => beqL a b
  | .doc a, .doc b => beqF a b
  | _, _ => false

/-- Structural equality test for lists of `BVal`. -/
def beqL : List BVal → List BVal → Bool
  | [], [] => true
  | a :: as, b :: bs => beqV a b && beqL as bs
  | _, _ => false

/-- Structural equality test for field lists. -/
def beqF : List (String × BVal) → List (String × BVal) → Bool
  | [], [] => true
  | (k1, v1) :: as, (k2, v2) :: bs => k1 = k2 && beqV v1 v2 && beqF as bs
  | _, _ => false

end

mutual

theorem beqV_refl : ∀ a, beqV a a = true
  | .null => rfl
  | .bool a => by simp [beqV]
  | .int a => by simp [beqV]
  | .str a => by simp [beqV]
  | .arr a => by simp [beqV, beqL_refl a]
  | .doc a => by simp [beqV, beqF_refl a]

theorem beqL_refl : ∀ a, beqL a a = true
  | [] => rfl
  | a :: as => by simp [beqL, beqV_refl a, beqL_refl as]

theorem beqF_refl : ∀ a, beqF a a = true
  | [] => rfl
  | (k, v) :: as => by simp [beqF, beqV_refl v, beqF_refl as]

end

mutual

theorem beqV_sound : ∀ a b, beqV a b = true → a = b
  | .null, .null, _ => rfl
  | .bool a, .bool b, h => by simpa [beqV] using h
  | .int a, .int b, h => by simpa [beqV] using h
  | .str a, .str b, h => by simpa [beqV] using h
  | .arr a, .arr b, h => by
      have := beqL_sound a b (by simpa [beqV] using h)
      simp [this]
  | .doc a, .doc b, h => by
      have := beqF_sound a b (by simpa [beqV] using h)
      simp [this]
  | .null, .bool _, h => by simp [beqV] at h
  | .null, .int _, h => by simp [beqV] at h
  | .null, .str _, h => by simp [beqV] at h
  | .null, .arr _, h => by simp [beqV] at h
  | .null, .doc _, h => by simp [beqV] at h
  | .bool _, .null, h => by simp [beqV] at h
  | .bool _, .int _, h => by simp [beqV] at h
  | .bool _, .str _, h => by simp [beqV] at h
  | .bool _, .arr _, h => by simp [beqV] at h
  | .bool _, .doc _, h => by simp [beqV] at h
  | .int _, .null, h => by simp [beqV] at h
  | .int _, .bool _, h => by simp [beqV] at h
  | .int _, .str _, h => by simp [beqV] at h
  | .int _, .arr _, h => by simp [beqV] at h
  | .int _, .doc _, h => by simp [beqV] at h
  | .str _, .null, h => by simp [beqV] at h
  | .str _, .bool _, h => by simp [beqV] at h
  | .str _, .int _, h => by simp [beqV] at h
  | .str _, .arr _, h => by simp [beqV] at h
  | .str _, .doc _, h => by simp [beqV] at h
  | .arr _, .null, h => by simp [beqV] at h
  | .arr _, .bool _, h => by simp [beqV] at h
  | .arr _, .int _, h => by simp [beqV] at h
  | .arr _, .str _, h => by simp [beqV] at h
  | .arr _, .doc _, h => by simp [beqV] at h
  | .doc _, .null, h => by simp [beqV] at h
  | .doc _, .bool _, h => by simp [beqV] at h
  | .doc _, .int _, h => by simp [beqV] at h
  | .doc _, .str _, h => by simp [beqV] at h
  | .doc _, .arr _, h => by simp [beqV] at h

theorem beqL_sound : ∀ a b, beqL a b = true → a = b
  | [], [], _ => rfl
  | [], _ :: _, h => by simp [beqL] at h
  | _ :: _, [], h => by simp [beqL] at h
  | a :: as, b :: bs, h => by
      have h1 : beqV a b = true := by
        have := h; simp [beqL, Bool.and_eq_true] at this; exact this.1
      have h2 : beqL as bs = true := by
        have := h; simp [beqL, Bool.and_eq_true] at this; exact this.2
      have e1 := beqV_sound a b h1
      have e2 := beqL_sound as bs h2
      simp [e1, e2]

theorem beqF_sound : ∀ a b, beqF a b = true → a = b
  | [], [], _ => rfl
  | [], _ :: _, h => by simp [beqF] at h
  | _ :: _, [], h => by simp [beqF] at h
  | (k1, v1) :: as, (k2, v2) :: bs, h => by
      have h0 : (k1 = k2 ∧ beqV v1 v2 = true) ∧ beqF as bs = true := by
        have := h; simp [beqF, Bool.and_eq_true, decide_eq_true_eq] at this
        exact ⟨⟨this.1.1, this.1.2⟩, this.2⟩
      have e1 := beqV_sound v1 v2 h0.1.2
      have e2 := beqF_sound as bs h0.2
      simp [h0.1.1, e1, e2]

end

instance : DecidableEq BVal := fun a b =>
  if h : beqV a b = true then isTrue (beqV_sound a b h)
  else isFalse (fun e => h (e ▸ beqV_refl a))

/-- First-match association-list lookup, the reading a `$getField` performs on
a BSON document (BSON documents normally carry each key once). -/
def lookupField (f : String) : List (String × BVal) → Option BVal
  | [] => none
  | (k, v) :: rest => if k = f then some v else lookupField f rest

/-- Semantics of `$getField {field, input}`.  A missing input propagates to a
missing output; a present document yields the field value (or missing).
(On a non-document, non-missing input MongoDB raises an error; that case is
only reachable outside the BSON shape assumed by the data model - see `wfB` -
and is mapped to missing here.) -/
def getField (f : String) : Option BVal → Option BVal
  | some (BVal.doc fs) => lookupField f fs
  | _ => none

/-- Semantics of `$objectToArray`: the ordered key/value pairs of a document.
(MongoDB errors on a non-document argument; that case is only reachable
outside the `wfB` data model and is mapped to [] here.) -/
def objectToArray : BVal → List (String × BVal)
  | BVal.doc fs => fs
  | _ => []

/-- Semantics of `$type`: the runtime type tag of a value. -/
def typeName : BVal → String
  | BVal.null => "null"
  | BVal.bool _ => "bool"
  | BVal.int _ => "int"
  | BVal.str _ => "string"
  | BVal.arr _ => "array"
  | BVal.doc _ => "object"

/-- One insertion step of `$arrayToObject`: a repeated key keeps its original
position but receives the new (later) value; a fresh key is appended. -/
def insertKV (acc : List (String × BVal)) (kv : String × BVal) : List (String × BVal) :=
  if acc.any (fun p => p.1 = kv.1) then
    acc.map (fun p => if p.1 = kv.1 then (p.1, kv.2) else p)
  else acc ++ [kv]

/-- Semantics of `$arrayToObject` on a k/v pair array: build the document by
inserting the pairs left to right; for a duplicated key the last value wins
(documented MongoDB behaviour). -/
def arrayToObject (kvs : List (String × BVal)) : List (String × BVal) :=
  kvs.foldl insertKV []

/-- The value the last pair carrying key `k` holds, if any: the value
`$arrayToObject` ends up storing under `k`. -/
def lastVal (k : String) (kvs : List (String × BVal)) : Option BVal :=
  kvs.foldl (fun r kv => if kv.1 = k then some kv.2 else r) none

/-- A worklist entry, mirroring the documents the expression pushes onto
`subLevelsToInspect`: `{"_depth": ..., "_idx": ..., "subdoc": ...}`. -/
structure SubLevel where
  _depth : Nat
  _idx : String
  subdoc : BVal
deriving DecidableEq, Repr

/-- The `$reduce` accumulator: `{"result": ..., "subLevelsToInspect": ...}`.
Note that the value of the whole generated expression IS this two-field
document (the `$reduce` returns its final accumulator; nothing projects out
`result`). -/
structure AccState where
  result : List BVal
  subLevelsToInspect : List SubLevel
deriving DecidableEq, Repr

/-- The parameters of `graphDescend` after the `startWith` defaulting on the
first line of the function body. -/
structure GDParams where
  connectToField : String
  startWith : String
  maxElements : Int
  omitFields : List String
  maxDepth : Int
  showSchema : Bool

/-- Mirrors `startWith = startWith ? startWith : connectToField`: a `null`
(absent) or empty (falsy) `startWith` defaults to `connectToField`. -/
def mkParams (connectToField : String) (startWith : Option String)
    (maxElements : Int) (omitFields : List String) (maxDepth : Int)
    (showSchema : Bool) : GDParams :=
  { connectToField := connectToField
    startWith := match startWith with
      | some s => if s = "" then connectToField else s
      | none => connectToField
    maxElements := maxElements
    omitFields := omitFields
    maxDepth := maxDepth
    showSchema := showSchema }

/-- The `maxDepth` let-binding:
`{"$cond": [{"$or": [{"$lt": [maxDepth, 0]}, {"$gt": [maxDepth, 100]}]}, 100, maxDepth]}`. -/
def clampMaxDepth (maxDepth : Int) : Int :=
  if maxDepth < 0 ∨ maxDepth > 100 then 100 else maxDepth

/-- The literal overrun warning document emitted when `$$this` reaches
`maxElements` with the worklist non-empty. -/
def overrunMarker : BVal :=
  BVal.doc [("WARNING", BVal.str "The 'maxElements' parameter for graphDescend() was not set to a large enough value to fully descend a nested document")]

/-- The `schema` value: `$map` over `$objectToArray` of the node's raw
sub-document, pairing each field name with its `$type` tag. -/
def schemaVal (sub : BVal) : BVal :=
  BVal.arr ((objectToArray sub).map (fun kv =>
    BVal.doc [("fieldname", BVal.str kv.1), ("type", BVal.str (typeName kv.2))]))

/-- The k/v pair array handed to `$arrayToObject` when a normal record is
emitted at iteration `i` for head node `e`, with `fname` the branching field
the emission filters out (`currChildFieldName` in the source). -/
def emitKVs (P : GDParams) (i : Nat) (e : SubLevel) (fname : String) :
    List (String × BVal) :=
  [("_ord", BVal.int i), ("_depth", BVal.int e._depth), ("_idx", BVal.str e._idx)]
  ++ (if P.showSchema then [("schema", schemaVal e.subdoc)] else [])
  ++ ((objectToArray e.subdoc).filter
        (fun kv => kv.1 ≠ fname ∧ kv.1 ∉ P.omitFields))

/-- The list of elements this step appends to `result` (the second argument
of the outer `$concatArrays` in the `result` branch of the step body):
nothing when the worklist is empty, the overrun marker once `$$this` reaches
`maxElements`, otherwise one normal record. -/
def stepEmission (P : GDParams) (i : Nat) (s : AccState) : List BVal :=
  let currLevelElement := s.subLevelsToInspect.head?
  let currChildFieldName := if (i : Int) ≤ 0 then P.startWith else P.connectToField
  match currLevelElement with
  | none => []
  | some e =>
    if (i : Int) ≥ P.maxElements then [overrunMarker]
    else [BVal.doc (arrayToObject (emitKVs P i e currChildFieldName))]

/-- The worklist entries built from a node's branching-field value: for
`currLevelChildren` an array and `newDepthNumber` within the clamped depth, an
inner `$reduce` over `$range [0, size]` appends one entry per child, carrying
`_depth` one deeper, `_idx` extended with `_<k>`, and the raw child as
`subdoc`; any non-array value (or exceeded depth) contributes nothing. -/
def childNodes (fname : String) (maxDepthClamped : Int) (e : SubLevel) :
    List SubLevel :=
  match getField fname (some e.subdoc) with
  | some (BVal.arr cs) =>
    if (e._depth : Int) + 1 ≤ maxDepthClamped then
      (List.range cs.length).foldl
        (fun acc k => acc ++
          [{ _depth := e._depth + 1
             _idx := e._idx ++ "_" ++ Nat.repr k
             subdoc := cs.getD k BVal.null }]) []
    else []
  | _ => []

/-- The new `subLevelsToInspect`: chop the head off (the element just
inspected) and append the head's children. -/
def stepSubLevels (P : GDParams) (i : Nat) (s : AccState) : List SubLevel :=
  let subLevelsToInspectSize := s.subLevelsToInspect.length
  let fname := if (i : Int) ≤ 0 then P.startWith else P.connectToField
  let chopped :=
    if subLevelsToInspectSize > 0 then s.subLevelsToInspect.drop 1 else []
  let appended :=
    match s.subLevelsToInspect.head? with
    | some e => childNodes fname (clampMaxDepth P.maxDepth) e
    | none => []
  chopped ++ appended

/-- One step of the outer `$reduce` (its `in` expression): both branches read
the previous accumulator `$$value` and the iteration index `$$this = i`. -/
def graphStep (P : GDParams) (s : AccState) (i : Nat) : AccState :=
  { result := s.result ++ stepEmission P i s
    subLevelsToInspect := stepSubLevels P i s }

/-- The reduce's `initialValue`: empty result, worklist holding the root
document at depth 0 with path "0". -/
def initState (root : BVal) : AccState :=
  { result := []
    subLevelsToInspect := [{ _depth := 0, _idx := "0", subdoc := root }] }

/-- Evaluating the expression `graphDescend(...)` returns against the input
document `root` (bound to `$$ROOT`): the outer `$reduce` folds the step over
`$range [0, maxElements + 1]` and its value - the final accumulator document,
with both its fields - is the value of the whole expression. -/
def graphDescend (P : GDParams) (root : BVal) : AccState :=
  (List.range (P.maxElements + 1).toNat).foldl (graphStep P) (initState root)

/-- Is the value a document? -/
def isDocB : BVal → Bool
  | BVal.doc _ => true
  | _ => false

mutual

/-- The BSON shape the spec's data model describes: values are scalars,
nested documents, or sequences of documents, so every array holds documents
only.  (On values outside this shape the generated expression can reach
`$objectToArray` / `$getField` on a non-document, which errors in MongoDB.) -/
def wfB : BVal → Bool
  | .null => true
  | .bool _ => true
  | .int _ => true
  | .str _ => true
  | .arr xs => wfArr xs
  | .doc fs => wfFields fs

/-- Array elements must all be well-formed documents. -/
def wfArr : List BVal → Bool
  | [] => true
  | v :: rest => isDocB v && wfB v && wfArr rest

/-- All field values must be well-formed. -/
def wfFields : List (String × BVal) → Bool
  | [] => true
  | (_, v) :: rest => wfB v && wfFields rest

end

/-- The field names the emission step itself writes into every record. -/
def reservedNames : List String := ["_ord", "_depth", "_idx", "schema"]

mutual

/-- No document anywhere inside the value uses one of the metadata field
names the traversal writes (`_ord`, `_depth`, `_idx`, `schema`). -/
def metaFreeB : BVal → Bool
  | .null => true
  | .bool _ => true
  | .int _ => true
  | .str _ => true
  | .arr xs => metaFreeArr xs
  | .doc fs => metaFreeFields fs

/-- All array elements are free of metadata field names. -/
def metaFreeArr : List BVal → Bool
  | [] => true
  | v :: rest => metaFreeB v && metaFreeArr rest

/-- No field uses a metadata name, and all values are recursively free. -/
def metaFreeFields : List (String × BVal) → Bool
  | [] => true
  | (k, v) :: rest => !(reservedNames.contains k) && metaFreeB v && metaFreeFields rest

end

/-- The initial worklist entry built from `$$ROOT`. -/
def rootNode (root : BVal) : SubLevel :=
  { _depth := 0, _idx := "0", subdoc := root }

/-- The branching field active at a node: root branching field at depth 0,
inner branching field below.  During the run this coincides with the
`$$this <= 0` selection the source makes, because the root is the only node
the fold can see at iteration 0 and the only node of depth 0. -/
def activeFieldName (P : GDParams) (e : SubLevel) : String :=
  if e._depth = 0 then P.startWith else P.connectToField

/-- The children a node contributes to the worklist, with the branching field
selected by the node's depth. -/
def specChildren (P : GDParams) (e : SubLevel) : List SubLevel :=
  childNodes (activeFieldName P e) (clampMaxDepth P.maxDepth) e

/-- The first `n` nodes a FIFO worklist visits: pop the head, push its
children at the tail. -/
def queuePop (P : GDParams) : Nat → List SubLevel → List SubLevel
  | 0, _ => []
  | _ + 1, [] => []
  | n + 1, e :: rest => e :: queuePop P n (rest ++ specChildren P e)

/-- The worklist left after `n` pops. -/
def queueRest (P : GDParams) : Nat → List SubLevel → List SubLevel
  | 0, w => w
  | _ + 1, [] => []
  | n + 1, e :: rest => queueRest P n (rest ++ specChildren P e)

/-- All children of a frontier, in parent order and, per parent, sibling
order. -/
def nextLevel (P : GDParams) (w : List SubLevel) : List SubLevel :=
  w.flatMap (specChildren P)

/-- The concatenation of `k` successive levels starting from frontier `w`. -/
def levelIter (P : GDParams) : Nat → List SubLevel → List SubLevel
  | 0, _ => []
  | k + 1, w => w ++ levelIter P k (nextLevel P w)

/-- The breadth-first enumeration of every node reachable within the clamped
depth: levels 0, 1, ..., clampMaxDepth concatenated in order. -/
def bfsEnum (P : GDParams) (root : BVal) : List SubLevel :=
  levelIter P ((clampMaxDepth P.maxDepth).toNat + 1) [rootNode root]

/-- How many nodes are reachable within the clamped depth. -/
def totalReachable (P : GDParams) (root : BVal) : Nat :=
  (bfsEnum P root).length

/-- The normal record emitted for node `e` at iteration index `i`, with the
branching field selected by the node's depth. -/
def emitRecordAt (P : GDParams) (i : Nat) (e : SubLevel) : BVal :=
  BVal.doc (arrayToObject (emitKVs P i e (activeFieldName P e)))

/-- The records for a list of nodes visited at consecutive iteration indices
starting at `j`. -/
def emitFrom (P : GDParams) : Nat → List SubLevel → List BVal
  | _, [] => []
  | j, e :: rest => emitRecordAt P j e :: emitFrom P (j + 1) rest

set_option maxRecDepth 100000

/-! ### Lemmas about `$arrayToObject` semantics -/

theorem lookupField_map_replace (f k : String) (v : BVal) (l : List (String × BVal))
    (hk : k ≠ f) :
    lookupField f (l.map (fun p => if p.1 = k then (p.1, v) else p)) = lookupField f l := by
  induction l with
  | nil => rfl
  | cons hd tl ih =>
    obtain ⟨k1, v1⟩ := hd
    by_cases h1 : k1 = k
    · have hne : ¬ k1 = f := h1 ▸ hk
      simp only [List.map_cons]
      rw [if_pos (by simpa using h1)]
      simp only [lookupField, if_neg hne, ih]
    · simp only [List.map_cons]
      rw [if_neg (by simpa using h1)]
      by_cases h2 : k1 = f
      · simp [lookupField, h2]
      · simp only [lookupField, if_neg h2, ih]

theorem lookupField_map_replace_any (f k : String) (v : BVal) (l : List (String × BVal))
    (hany : l.any (fun p => p.1 = k) = true) :
    lookupField f (l.map (fun p => if p.1 = k then (p.1, v) else p)) =
      if k = f then some v else lookupField f l := by
  induction l with
  | nil => simp at hany
  | cons hd tl ih =>
    obtain ⟨k1, v1⟩ := hd
    by_cases h1 : k1 = k
    · simp only [List.map_cons]
      rw [if_pos (by simpa using h1)]
      by_cases h2 : k = f
      · have : k1 = f := h1.trans h2
        simp [lookupField, this, h2]
      · have hne : ¬ k1 = f := fun e => h2 (h1 ▸ e : k = f)
        simp only [lookupField, if_neg hne, if_neg h2]
        exact lookupField_map_replace f k v tl h2
    · have htl : tl.any (fun p => p.1 = k) = true := by
        simpa [List.any_cons, h1] using hany
      simp only [List.map_cons]
      rw [if_neg (by simpa using h1)]
      by_cases h2 : k1 = f
      · have hkf : ¬ k = f := fun e => h1 (h2.trans e.symm)
        simp [lookupField, h2, hkf]
      · simp only [lookupField, if_neg h2]
        exact ih htl

theorem lookupField_append_fresh (f k : String) (v : BVal) (l : List (String × BVal))
    (hany : l.any (fun p => p.1 = k) = false) :
    lookupField f (l ++ [(k, v)]) = if k = f then some v else lookupField f l := by
  induction l with
  | nil => rfl
  | cons hd tl ih =>
    obtain ⟨k1, v1⟩ := hd
    have h1 : ¬ k1 = k := by
      intro e
      simp [List.any_cons, e] at hany
    have htl : tl.any (fun p => p.1 = k) = false := by
      simpa [List.any_cons, h1] using hany
    by_cases h2 : k1 = f
    · have hkf : ¬ k = f := fun e => h1 ((e.trans h2.symm).symm)
      simp [lookupField, h2, hkf]
    · simp only [List.cons_append, lookupField, if_neg h2]
      exact ih htl

theorem lookupField_insertKV (f k : String) (v : BVal) (acc : List (String × BVal)) :
    lookupField f (insertKV acc (k, v)) = if k = f then some v else lookupField f acc := by
  by_cases hany : acc.any (fun p => p.1 = k) = true
  · have : insertKV acc (k, v) = acc.map (fun p => if p.1 = k then (p.1, v) else p) := by
      simp only [insertKV]
      rw [if_pos (by simpa using hany)]
    rw [this]
    exact lookupField_map_replace_any f k v acc hany
  · have hf : acc.any (fun p => p.1 = k) = false := Bool.eq_false_iff.mpr hany
    have : insertKV acc (k, v) = acc ++ [(k, v)] := by
      simp only [insertKV]
      rw [if_neg (by simpa using hany)]
    rw [this]
    exact lookupField_append_fresh f k v acc hf

theorem lastVal_foldl (f : String) (rest : List (String × BVal)) :
    ∀ init, rest.foldl (fun r kv => if kv.1 = f then some kv.2 else r) init =
      Option.or (lastVal f rest) init := by
  induction rest with
  | nil => intro init; simp [lastVal]
  | cons kv tl ih =>
    intro init
    obtain ⟨k, v⟩ := kv
    show List.foldl _ (if k = f then some v else init) tl = _
    rw [ih]
    have hcons : lastVal f ((k, v) :: tl) =
        Option.or (lastVal f tl) (if k = f then some v else none) := by
      show List.foldl _ (if k = f then some v else none) tl = _
      rw [ih]
    rw [hcons, Option.or_assoc]
    congr 1
    by_cases h : k = f <;> simp [h]

theorem lastVal_cons (f k : String) (v : BVal) (tl : List (String × BVal)) :
    lastVal f ((k, v) :: tl) = Option.or (lastVal f tl) (if k = f then some v else none) := by
  show List.foldl _ (if k = f then some v else none) tl = _
  rw [lastVal_foldl]

theorem lastVal_append (f : String) (l1 l2 : List (String × BVal)) :
    lastVal f (l1 ++ l2) = Option.or (lastVal f l2) (lastVal f l1) := by
  show (l1 ++ l2).foldl _ none = _
  rw [List.foldl_append, lastVal_foldl]
  rfl

theorem lastVal_eq_none (f : String) (l : List (String × BVal))
    (h : ∀ kv ∈ l, kv.1 ≠ f) : lastVal f l = none := by
  induction l with
  | nil => rfl
  | cons kv tl ih =>
    obtain ⟨k, v⟩ := kv
    rw [lastVal_cons]
    have hk : k ≠ f := h (k, v) (List.mem_cons_self _ _)
    rw [if_neg hk, Option.or_none]
    exact ih (fun kv hkv => h kv (List.mem_cons_of_mem _ hkv))

theorem lookupField_foldl_insertKV (f : String) (kvs : List (String × BVal)) :
    ∀ acc, lookupField f (kvs.foldl insertKV acc) =
      Option.or (lastVal f kvs) (lookupField f acc) := by
  induction kvs with
  | nil => intro acc; simp [lastVal]
  | cons kv tl ih =>
    intro acc
    obtain ⟨k, v⟩ := kv
    show lookupField f (tl.foldl insertKV (insertKV acc (k, v))) = _
    rw [ih, lookupField_insertKV, lastVal_cons, Option.or_assoc]
    congr 1
    by_cases h : k = f <;> simp [h]

/-- Reading a field of the `$arrayToObject` result yields the value of the
last pair carrying that key: a sub-document field occurring after the
traversal metadata in the pair array shadows the metadata. -/
theorem lookupField_arrayToObject (f : String) (kvs : List (String × BVal)) :
    lookupField f (arrayToObject kvs) = lastVal f kvs := by
  have := lookupField_foldl_insertKV f kvs []
  simpa [lookupField] using this

theorem lastVal_filter_of_key_none (f : String) (p : String × BVal → Prop)
    [DecidablePred p] (l : List (String × BVal))
    (h : ∀ kv ∈ l, p kv → kv.1 ≠ f) :
    lastVal f (l.filter (fun kv => p kv)) = none := by
  apply lastVal_eq_none
  intro kv hkv
  rw [List.mem_filter] at hkv
  exact h kv hkv.1 (by simpa using hkv.2)

theorem lastVal_filter_nodup (f fname : String) (omitL : List String) (v : BVal)
    (l : List (String × BVal)) (hnd : (l.map Prod.fst).Nodup)
    (hv : lookupField f l = some v) (hf : f ≠ fname) (ho : f ∉ omitL) :
    lastVal f (l.filter (fun kv => kv.1 ≠ fname ∧ kv.1 ∉ omitL)) = some v := by
  induction l with
  | nil => simp [lookupField] at hv
  | cons kv tl ih =>
    obtain ⟨k, w⟩ := kv
    simp only [List.map_cons, List.nodup_cons] at hnd
    by_cases hk : k = f
    · subst hk
      have hw : w = v := by
        simpa [lookupField] using hv
      subst hw
      rw [List.filter_cons]
      rw [if_pos (by simpa using (⟨hf, ho⟩ : k ≠ fname ∧ k ∉ omitL))]
      rw [lastVal_cons, if_pos rfl]
      have : lastVal k (tl.filter (fun kv => decide (kv.1 ≠ fname ∧ kv.1 ∉ omitL))) = none := by
        apply lastVal_eq_none
        intro kv hkv
        rw [List.mem_filter] at hkv
        intro e
        exact hnd.1 (e ▸ List.mem_map_of_mem Prod.fst hkv.1)
      rw [this]
      rfl
    · have hv2 : lookupField f tl = some v := by
        simpa [lookupField, hk] using hv
      rw [List.filter_cons]
      by_cases hkeep : (k ≠ fname ∧ k ∉ omitL)
      · rw [if_pos (by simpa using hkeep)]
        rw [lastVal_cons, if_neg hk, Option.or_none]
        exact ih hnd.2 hv2
      · rw [if_neg (by simpa using hkeep)]
        exact ih hnd.2 hv2

/-! ### Reading fields of an emitted record -/

theorem getField_doc (f : String) (fs : List (String × BVal)) :
    getField f (some (BVal.doc fs)) = lookupField f fs := rfl

theorem getField_emitRecordAt (P : GDParams) (i : Nat) (e : SubLevel) (f : String) :
    getField f (some (emitRecordAt P i e)) =
      lastVal f (emitKVs P i e (activeFieldName P e)) := by
  rw [emitRecordAt, getField_doc, lookupField_arrayToObject]

theorem lastVal_schemaOpt_ne (P : GDParams) (e : SubLevel) (f : String) (h : f ≠ "schema") :
    lastVal f (if P.showSchema then [("schema", schemaVal e.subdoc)] else []) = none := by
  by_cases hs : P.showSchema
  · rw [if_pos hs]
    exact lastVal_eq_none f _ (by simpa using fun e => (h e.symm).elim)
  · rw [if_neg hs]
    rfl

theorem lastVal_emitKVs_meta (P : GDParams) (i : Nat) (e : SubLevel) (fname f : String)
    (hf : f = "_ord" ∨ f = "_depth" ∨ f = "_idx")
    (h : ∀ kv ∈ objectToArray e.subdoc, kv.1 ≠ f) :
    lastVal f (emitKVs P i e fname) =
      lookupField f [("_ord", BVal.int i), ("_depth", BVal.int e._depth),
        ("_idx", BVal.str e._idx)] := by
  unfold emitKVs
  rw [lastVal_append, lastVal_append]
  have hfil : lastVal f ((objectToArray e.subdoc).filter
      (fun kv => kv.1 ≠ fname ∧ kv.1 ∉ P.omitFields)) = none := by
    apply lastVal_eq_none
    intro kv hkv
    rw [List.mem_filter] at hkv
    exact h kv hkv.1
  have hsch : lastVal f (if P.showSchema then [("schema", schemaVal e.subdoc)] else []) = none := by
    apply lastVal_schemaOpt_ne
    rcases hf with rfl | rfl | rfl <;> decide
  rw [hfil, hsch]
  rcases hf with rfl | rfl | rfl <;> simp [lastVal, lookupField]

theorem getField_record_ord (P : GDParams) (i : Nat) (e : SubLevel)
    (h : ∀ kv ∈ objectToArray e.subdoc, kv.1 ≠ "_ord") :
    getField "_ord" (some (emitRecordAt P i e)) = some (BVal.int i) := by
  rw [getField_emitRecordAt, lastVal_emitKVs_meta P i e _ _ (Or.inl rfl) h]
  simp [lookupField]

theorem getField_record_depth (P : GDParams) (i : Nat) (e : SubLevel)
    (h : ∀ kv ∈ objectToArray e.subdoc, kv.1 ≠ "_depth") :
    getField "_depth" (some (emitRecordAt P i e)) = some (BVal.int e._depth) := by
  rw [getField_emitRecordAt, lastVal_emitKVs_meta P i e _ _ (Or.inr (Or.inl rfl)) h]
  simp [lookupField]

theorem getField_record_idx (P : GDParams) (i : Nat) (e : SubLevel)
    (h : ∀ kv ∈ objectToArray e.subdoc, kv.1 ≠ "_idx") :
    getField "_idx" (some (emitRecordAt P i e)) = some (BVal.str e._idx) := by
  rw [getField_emitRecordAt, lastVal_emitKVs_meta P i e _ _ (Or.inr (Or.inr rfl)) h]
  simp [lookupField]

theorem getField_record_schema (P : GDParams) (i : Nat) (e : SubLevel)
    (hs : P.showSchema = true)
    (h : ∀ kv ∈ objectToArray e.subdoc, kv.1 ≠ "schema") :
    getField "schema" (some (emitRecordAt P i e)) = some (schemaVal e.subdoc) := by
  rw [getField_emitRecordAt]
  unfold emitKVs
  rw [lastVal_append, lastVal_append]
  have hfil : lastVal "schema" ((objectToArray e.subdoc).filter
      (fun kv => kv.1 ≠ activeFieldName P e ∧ kv.1 ∉ P.omitFields)) = none := by
    apply lastVal_eq_none
    intro kv hkv
    rw [List.mem_filter] at hkv
    exact h kv hkv.1
  have hmeta : lastVal "schema" [("_ord", BVal.int i), ("_depth", BVal.int e._depth),
      ("_idx", BVal.str e._idx)] = none := by
    simp [lastVal]
  rw [hfil, hmeta, if_pos hs, lastVal_cons]
  simp [lastVal]

theorem lastVal_emitKVs_data (P : GDParams) (i : Nat) (e : SubLevel) (fname f : String)
    (h1 : f ≠ "_ord") (h2 : f ≠ "_depth") (h3 : f ≠ "_idx") (h4 : f ≠ "schema") :
    lastVal f (emitKVs P i e fname) =
      lastVal f ((objectToArray e.subdoc).filter
        (fun kv => kv.1 ≠ fname ∧ kv.1 ∉ P.omitFields)) := by
  unfold emitKVs
  rw [lastVal_append, lastVal_append]
  have hmeta : lastVal f [("_ord", BVal.int i), ("_depth", BVal.int e._depth),
      ("_idx", BVal.str e._idx)] = none := by
    apply lastVal_eq_none
    intro kv hkv
    have hkv3 : kv = ("_ord", BVal.int i) ∨ kv = ("_depth", BVal.int e._depth) ∨
        kv = ("_idx", BVal.str e._idx) := by simpa using hkv
    rcases hkv3 with rfl | rfl | rfl
    · exact fun e => h1 e.symm
    · exact fun e => h2 e.symm
    · exact fun e => h3 e.symm
  rw [lastVal_schemaOpt_ne P e f h4, hmeta]
  simp

/-- Every normal record keeps a field named `_ord` (its value may be shadowed
by a sub-document field of that name), while the overrun marker has no such
field, so the two can never be the same document. -/
theorem emitRecord_ne_marker (P : GDParams) (i : Nat) (e : SubLevel) (fname : String) :
    BVal.doc (arrayToObject (emitKVs P i e fname)) ≠ overrunMarker := by
  intro hEq
  have hfields : arrayToObject (emitKVs P i e fname) =
      [("WARNING", BVal.str "The 'maxElements' parameter for graphDescend() was not set to a large enough value to fully descend a nested document")] := by
    injection hEq
  have hsome : (lastVal "_ord" (emitKVs P i e fname)).isSome = true := by
    unfold emitKVs
    rw [lastVal_append, lastVal_append]
    have : lastVal "_ord" [("_ord", BVal.int i), ("_depth", BVal.int e._depth),
        ("_idx", BVal.str e._idx)] = some (BVal.int i) := by
      simp [lastVal]
    rw [this]
    cases lastVal "_ord" ((objectToArray e.subdoc).filter
        (fun kv => kv.1 ≠ fname ∧ kv.1 ∉ P.omitFields)) with
    | none =>
      cases lastVal "_ord" (if P.showSchema then [("schema", schemaVal e.subdoc)] else []) with
      | none => rfl
      | some v => rfl
    | some v => rfl
  rw [← lookupField_arrayToObject, hfields] at hsome
  simp [lookupField] at hsome

/-! ### The children a node contributes -/

theorem foldl_append_singleton {α β : Type} (g : α → β) (l : List α) :
    ∀ init : List β, l.foldl (fun acc k => acc ++ [g k]) init = init ++ l.map g := by
  induction l with
  | nil => intro init; simp
  | cons a tl ih => intro init; rw [List.foldl_cons, ih]; simp

theorem childNodes_pos (fname : String) (md : Int) (e : SubLevel) (cs : List BVal)
    (hc : getField fname (some e.subdoc) = some (BVal.arr cs))
    (hd : (e._depth : Int) + 1 ≤ md) :
    childNodes fname md e = (List.range cs.length).map (fun k =>
      { _depth := e._depth + 1
        _idx := e._idx ++ "_" ++ Nat.repr k
        subdoc := cs.getD k BVal.null }) := by
  simp only [childNodes, hc, if_pos hd]
  rw [foldl_append_singleton]
  simp

theorem childNodes_not_arr (fname : String) (md : Int) (e : SubLevel)
    (h : ∀ cs, getField fname (some e.subdoc) ≠ some (BVal.arr cs)) :
    childNodes fname md e = [] := by
  unfold childNodes
  cases hg : getField fname (some e.subdoc) with
  | none => rfl
  | some v =>
    cases v with
    | arr cs => exact absurd hg (h cs)
    | null => rfl
    | bool b => rfl
    | int n => rfl
    | str s => rfl
    | doc fs => rfl

theorem childNodes_too_deep (fname : String) (md : Int) (e : SubLevel)
    (hd : ¬ (e._depth : Int) + 1 ≤ md) :
    childNodes fname md e = [] := by
  unfold childNodes
  cases hg : getField fname (some e.subdoc) with
  | none => rfl
  | some v =>
    cases v with
    | arr cs => simp [hd]
    | null => rfl
    | bool b => rfl
    | int n => rfl
    | str s => rfl
    | doc fs => rfl

theorem mem_childNodes (fname : String) (md : Int) (e c : SubLevel) :
    c ∈ childNodes fname md e ↔ ∃ cs k, getField fname (some e.subdoc) = some (BVal.arr cs) ∧
      (e._depth : Int) + 1 ≤ md ∧ k < cs.length ∧
      c = { _depth := e._depth + 1
            _idx := e._idx ++ "_" ++ Nat.repr k
            subdoc := cs.getD k BVal.null } := by
  constructor
  · intro hmem
    by_cases harr : ∃ cs, getField fname (some e.subdoc) = some (BVal.arr cs)
    · obtain ⟨cs, hc⟩ := harr
      by_cases hd : (e._depth : Int) + 1 ≤ md
      · rw [childNodes_pos fname md e cs hc hd] at hmem
        rw [List.mem_map] at hmem
        obtain ⟨k, hk, hck⟩ := hmem
        rw [List.mem_range] at hk
        exact ⟨cs, k, hc, hd, hk, hck.symm⟩
      · rw [childNodes_too_deep fname md e hd] at hmem
        cases hmem
    · rw [childNodes_not_arr fname md e (fun cs hc => harr ⟨cs, hc⟩)] at hmem
      cases hmem
  · rintro ⟨cs, k, hc, hd, hk, rfl⟩
    rw [childNodes_pos fname md e cs hc hd, List.mem_map]
    exact ⟨k, List.mem_range.mpr hk, rfl⟩

theorem childNodes_depth (fname : String) (md : Int) (e c : SubLevel)
    (h : c ∈ childNodes fname md e) : c._depth = e._depth + 1 := by
  rw [mem_childNodes] at h
  obtain ⟨cs, k, _, _, _, rfl⟩ := h
  rfl

/-! ### FIFO queue semantics -/

theorem queuePop_nil (P : GDParams) (n : Nat) : queuePop P n [] = [] := by
  cases n <;> rfl

theorem queueRest_nil (P : GDParams) (n : Nat) : queueRest P n [] = [] := by
  cases n <;> rfl

theorem queuePop_add (P : GDParams) :
    ∀ a b (w : List SubLevel),
      queuePop P (a + b) w = queuePop P a w ++ queuePop P b (queueRest P a w) := by
  intro a
  induction a with
  | zero => intro b w; rw [Nat.zero_add]; rfl
  | succ a ih =>
    intro b w
    cases w with
    | nil => rw [queuePop_nil, queuePop_nil, queueRest_nil, queuePop_nil]; rfl
    | cons e rest =>
      have hn : a + 1 + b = (a + b) + 1 := by omega
      rw [hn]
      show e :: queuePop P (a + b) (rest ++ specChildren P e) = _
      rw [ih b (rest ++ specChildren P e)]
      rfl

theorem queueRest_add (P : GDParams) :
    ∀ a b (w : List SubLevel),
      queueRest P (a + b) w = queueRest P b (queueRest P a w) := by
  intro a
  induction a with
  | zero => intro b w; rw [Nat.zero_add]; rfl
  | succ a ih =>
    intro b w
    cases w with
    | nil => rw [queueRest_nil, queueRest_nil, queueRest_nil]
    | cons e rest =>
      have hn : a + 1 + b = (a + b) + 1 := by omega
      rw [hn]
      show queueRest P (a + b) (rest ++ specChildren P e) = _
      rw [ih b (rest ++ specChildren P e)]
      rfl

theorem queuePop_take (P : GDParams) :
    ∀ n (w : List SubLevel), n ≤ w.length → queuePop P n w = w.take n := by
  intro n
  induction n with
  | zero => intro w _; rfl
  | succ n ih =>
    intro w h
    cases w with
    | nil => simp at h
    | cons e rest =>
      show e :: queuePop P n (rest ++ specChildren P e) = _
      have hn : n ≤ rest.length := by simpa using h
      rw [ih (rest ++ specChildren P e) (le_trans hn (by simp)),
        List.take_append_of_le_length hn, List.take_succ_cons]

theorem queuePop_len (P : GDParams) (w : List SubLevel) :
    queuePop P w.length w = w := by
  rw [queuePop_take P w.length w (le_refl _), List.take_length]

theorem queueRest_len_append (P : GDParams) :
    ∀ (w acc : List SubLevel),
      queueRest P w.length (w ++ acc) = acc ++ nextLevel P w := by
  intro w
  induction w with
  | nil => intro acc; simp [queueRest, nextLevel]
  | cons e w1 ih =>
    intro acc
    show queueRest P (w1.length + 1) (e :: (w1 ++ acc)) = _
    have step : queueRest P (w1.length + 1) (e :: (w1 ++ acc)) =
        queueRest P w1.length ((w1 ++ acc) ++ specChildren P e) := rfl
    rw [step, List.append_assoc, ih (acc ++ specChildren P e)]
    simp [nextLevel, List.append_assoc]

theorem queueRest_len (P : GDParams) (w : List SubLevel) :
    queueRest P w.length w = nextLevel P w := by
  have := queueRest_len_append P w []
  simpa using this

theorem queuePop_len_add (P : GDParams) (w : List SubLevel) (n : Nat) :
    queuePop P (w.length + n) w = w ++ queuePop P n (nextLevel P w) := by
  rw [queuePop_add, queuePop_len, queueRest_len]

theorem queueRest_len_add (P : GDParams) (w : List SubLevel) (n : Nat) :
    queueRest P (w.length + n) w = queueRest P n (nextLevel P w) := by
  rw [queueRest_add, queueRest_len]

/-- The frontier after descending `k` levels from `w`. -/
def nthLevel (P : GDParams) : Nat → List SubLevel → List SubLevel
  | 0, w => w
  | k + 1, w => nthLevel P k (nextLevel P w)

theorem nthLevel_succ_right (P : GDParams) :
    ∀ k (w : List SubLevel), nthLevel P (k + 1) w = nextLevel P (nthLevel P k w) := by
  intro k
  induction k with
  | zero => intro w; rfl
  | succ k ih =>
    intro w
    show nthLevel P (k + 1) (nextLevel P w) = _
    rw [ih (nextLevel P w)]
    rfl

theorem levelIter_take (P : GDParams) :
    ∀ k (w : List SubLevel) n, nthLevel P k w = [] →
      queuePop P n w = (levelIter P k w).take n := by
  intro k
  induction k with
  | zero =>
    intro w n h
    have hw : w = [] := h
    subst hw
    rw [queuePop_nil]
    simp [levelIter]
  | succ k ih =>
    intro w n h
    have hk : nthLevel P k (nextLevel P w) = [] := h
    show queuePop P n w = (w ++ levelIter P k (nextLevel P w)).take n
    rcases le_or_lt n w.length with hle | hlt
    · rw [queuePop_take P n w hle, List.take_append_of_le_length hle]
    · obtain ⟨n1, rfl⟩ := Nat.exists_eq_add_of_le (le_of_lt hlt)
      rw [queuePop_len_add, ih (nextLevel P w) n1 hk, List.take_append]

theorem levelIter_rest_empty (P : GDParams) :
    ∀ k (w : List SubLevel) n, nthLevel P k w = [] →
      (levelIter P k w).length ≤ n → queueRest P n w = [] := by
  intro k
  induction k with
  | zero =>
    intro w n h _
    have hw : w = [] := h
    subst hw
    exact queueRest_nil P n
  | succ k ih =>
    intro w n h hlen
    have hk : nthLevel P k (nextLevel P w) = [] := h
    have hlen2 : w.length + (levelIter P k (nextLevel P w)).length ≤ n := by
      simpa [levelIter] using hlen
    obtain ⟨n1, rfl⟩ := Nat.exists_eq_add_of_le (le_trans (Nat.le_add_right _ _) hlen2)
    rw [queueRest_len_add]
    exact ih (nextLevel P w) n1 hk (by omega)

theorem queueRest_empty_iff (P : GDParams) (k : Nat) (w : List SubLevel) (n : Nat)
    (hk : nthLevel P k w = []) :
    queueRest P n w = [] ↔ (levelIter P k w).length ≤ n := by
  constructor
  · intro hempty
    by_contra hgt
    push_neg at hgt
    have h1 := levelIter_take P k w n hk
    have h2 := levelIter_take P k w (n + 1) hk
    have h3 : queuePop P (n + 1) w = queuePop P n w := by
      rw [queuePop_add P n 1 w, hempty, queuePop_nil, List.append_nil]
    have h4 : ((levelIter P k w).take (n + 1)).length = ((levelIter P k w).take n).length := by
      rw [← h2, ← h1, h3]
    rw [List.length_take, List.length_take] at h4
    omega
  · exact levelIter_rest_empty P k w n hk

/-! ### Depth structure of the level enumeration -/

theorem clampMaxDepth_nonneg (m : Int) : 0 ≤ clampMaxDepth m := by
  unfold clampMaxDepth
  by_cases h : m < 0 ∨ m > 100
  · rw [if_pos h]; omega
  · rw [if_neg h]; omega

theorem clampMaxDepth_cast (m : Int) : (((clampMaxDepth m).toNat : Int)) = clampMaxDepth m :=
  Int.toNat_of_nonneg (clampMaxDepth_nonneg m)

theorem specChildren_depth (P : GDParams) (e c : SubLevel) (h : c ∈ specChildren P e) :
    c._depth = e._depth + 1 :=
  childNodes_depth _ _ _ _ h

theorem specChildren_too_deep (P : GDParams) (e : SubLevel)
    (hd : ¬ ((e._depth : Int) + 1 ≤ clampMaxDepth P.maxDepth)) :
    specChildren P e = [] :=
  childNodes_too_deep _ _ _ hd

theorem mem_nextLevel (P : GDParams) (w : List SubLevel) (c : SubLevel) :
    c ∈ nextLevel P w ↔ ∃ e ∈ w, c ∈ specChildren P e := by
  simp [nextLevel, List.mem_flatMap]

theorem nextLevel_depth (P : GDParams) (w : List SubLevel) (d : Nat)
    (h : ∀ e ∈ w, e._depth = d) :
    ∀ c ∈ nextLevel P w, c._depth = d + 1 := by
  intro c hc
  rw [mem_nextLevel] at hc
  obtain ⟨e, he, hce⟩ := hc
  rw [specChildren_depth P e c hce, h e he]

theorem nthLevel_depth (P : GDParams) :
    ∀ k (w : List SubLevel) (d : Nat), (∀ e ∈ w, e._depth = d) →
      ∀ c ∈ nthLevel P k w, c._depth = d + k := by
  intro k
  induction k with
  | zero => intro w d h c hc; rw [h c hc]; omega
  | succ k ih =>
    intro w d h c hc
    have := ih (nextLevel P w) (d + 1) (nextLevel_depth P w d h) c hc
    omega

theorem nthLevel_dies (P : GDParams) (root : BVal) :
    nthLevel P ((clampMaxDepth P.maxDepth).toNat + 1) [rootNode root] = [] := by
  rw [nthLevel_succ_right]
  apply List.eq_nil_iff_forall_not_mem.mpr
  intro c hc
  rw [mem_nextLevel] at hc
  obtain ⟨e, he, hce⟩ := hc
  have hdep : e._depth = (clampMaxDepth P.maxDepth).toNat := by
    have h0 : ∀ x ∈ [rootNode root], x._depth = 0 := by
      intro x hx
      rw [List.mem_singleton] at hx
      rw [hx]
      rfl
    have := nthLevel_depth P ((clampMaxDepth P.maxDepth).toNat) [rootNode root] 0 h0 e he
    omega
  have : specChildren P e = [] := by
    apply specChildren_too_deep
    rw [hdep]
    rw [show (((clampMaxDepth P.maxDepth).toNat : Nat) : Int) = clampMaxDepth P.maxDepth from
      clampMaxDepth_cast P.maxDepth]
    omega
  rw [this] at hce
  cases hce

theorem bfsEnum_take (P : GDParams) (root : BVal) (n : Nat) :
    queuePop P n [rootNode root] = (bfsEnum P root).take n :=
  levelIter_take P _ _ n (nthLevel_dies P root)

theorem bfsEnum_rest_iff (P : GDParams) (root : BVal) (n : Nat) :
    queueRest P n [rootNode root] = [] ↔ totalReachable P root ≤ n :=
  queueRest_empty_iff P _ _ n (nthLevel_dies P root)

/-! ### Characterizing one fold step -/

theorem fname_bridge (P : GDParams) (i : Nat) (e : SubLevel) (hm : i = 0 ↔ e._depth = 0) :
    (if (i : Int) ≤ 0 then P.startWith else P.connectToField) = activeFieldName P e := by
  unfold activeFieldName
  by_cases h : i = 0
  · rw [if_pos (by simp [h] : (i : Int) ≤ 0), if_pos (hm.mp h)]
  · have h1 : ¬ (i : Int) ≤ 0 := by omega
    rw [if_neg h1, if_neg (fun hd => h (hm.mpr hd))]

theorem stepEmission_empty (P : GDParams) (i : Nat) (s : AccState)
    (h : s.subLevelsToInspect = []) : stepEmission P i s = [] := by
  simp only [stepEmission, h]
  rfl

theorem stepSubLevels_empty (P : GDParams) (i : Nat) (s : AccState)
    (h : s.subLevelsToInspect = []) : stepSubLevels P i s = [] := by
  simp only [stepSubLevels, h]
  rfl

theorem stepEmission_marker (P : GDParams) (i : Nat) (s : AccState) (e : SubLevel)
    (hh : s.subLevelsToInspect.head? = some e) (hm : (i : Int) ≥ P.maxElements) :
    stepEmission P i s = [overrunMarker] := by
  simp only [stepEmission, hh]
  rw [if_pos hm]

theorem stepEmission_normal (P : GDParams) (i : Nat) (s : AccState) (e : SubLevel)
    (hh : s.subLevelsToInspect.head? = some e) (hm : ¬ (i : Int) ≥ P.maxElements)
    (hf : (if (i : Int) ≤ 0 then P.startWith else P.connectToField) = activeFieldName P e) :
    stepEmission P i s = [emitRecordAt P i e] := by
  simp only [stepEmission, hh]
  rw [if_neg hm, hf]
  rfl

theorem stepSubLevels_cons (P : GDParams) (i : Nat) (s : AccState) (e : SubLevel)
    (rest : List SubLevel) (hw : s.subLevelsToInspect = e :: rest)
    (hf : (if (i : Int) ≤ 0 then P.startWith else P.connectToField) = activeFieldName P e) :
    stepSubLevels P i s = rest ++ specChildren P e := by
  simp only [stepSubLevels, hw, hf]
  simp [specChildren]

/-! ### Running the bounded fold equals the FIFO queue semantics -/

theorem specChildren_deep (P : GDParams) (e : SubLevel) :
    ∀ c ∈ specChildren P e, 1 ≤ c._depth := by
  intro c hc
  rw [specChildren_depth P e c hc]
  omega

theorem deep_queueRest (P : GDParams) :
    ∀ (n : Nat) (w : List SubLevel), (∀ x ∈ w, 1 ≤ x._depth) →
      ∀ x ∈ queueRest P n w, 1 ≤ x._depth := by
  intro n
  induction n with
  | zero => intro w h; exact h
  | succ n ih =>
    intro w h
    cases w with
    | nil => rw [queueRest_nil]; intro x hx; cases hx
    | cons e rest =>
      show ∀ x ∈ queueRest P n (rest ++ specChildren P e), 1 ≤ x._depth
      apply ih
      intro x hx
      rcases List.mem_append.mp hx with hx | hx
      · exact h x (List.mem_cons_of_mem _ hx)
      · exact specChildren_deep P e x hx

theorem foldl_steps_empty (P : GDParams) :
    ∀ (idxs : List Nat) (res : List BVal),
      idxs.foldl (graphStep P) ⟨res, []⟩ = ⟨res, []⟩ := by
  intro idxs
  induction idxs with
  | nil => intro res; rfl
  | cons i tl ih =>
    intro res
    rw [List.foldl_cons]
    have hstep : graphStep P ⟨res, []⟩ i = ⟨res, []⟩ := by
      unfold graphStep
      rw [stepEmission_empty P i _ rfl, stepSubLevels_empty P i _ rfl, List.append_nil]
    rw [hstep, ih]

theorem run_normal (P : GDParams) :
    ∀ (n j : Nat) (res : List BVal) (w : List SubLevel),
      (∀ x ∈ w, 1 ≤ x._depth) → 1 ≤ j → ((j + n : Nat) : Int) ≤ P.maxElements →
      (List.range' j n).foldl (graphStep P) ⟨res, w⟩ =
        ⟨res ++ emitFrom P j (queuePop P n w), queueRest P n w⟩ := by
  intro n
  induction n with
  | zero =>
    intro j res w _ _ _
    show (⟨res, w⟩ : AccState) = _
    rw [show queuePop P 0 w = [] from rfl]
    show (⟨res, w⟩ : AccState) = ⟨res ++ [], w⟩
    rw [List.append_nil]
  | succ n ih =>
    intro n1 res w hdeep hj hle
    rw [List.range'_succ n1 n 1, List.foldl_cons]
    cases w with
    | nil =>
      have hstep : graphStep P ⟨res, []⟩ n1 = ⟨res, []⟩ := by
        unfold graphStep
        rw [stepEmission_empty P n1 ⟨res, []⟩ rfl, stepSubLevels_empty P n1 ⟨res, []⟩ rfl,
          List.append_nil]
      rw [hstep, foldl_steps_empty, queuePop_nil, queueRest_nil]
      show (⟨res, []⟩ : AccState) = ⟨res ++ [], []⟩
      rw [List.append_nil]
    | cons e rest =>
      have hdepth_e : 1 ≤ e._depth := hdeep e (List.mem_cons_self _ _)
      have hbridge : (if (n1 : Int) ≤ 0 then P.startWith else P.connectToField) =
          activeFieldName P e :=
        fname_bridge P n1 e (by omega)
      have hm : ¬ (n1 : Int) ≥ P.maxElements := by
        push_cast at hle
        omega
      have hstep : graphStep P ⟨res, e :: rest⟩ n1 =
          ⟨res ++ [emitRecordAt P n1 e], rest ++ specChildren P e⟩ := by
        unfold graphStep
        rw [stepEmission_normal P n1 ⟨res, e :: rest⟩ e rfl hm hbridge,
          stepSubLevels_cons P n1 ⟨res, e :: rest⟩ e rest rfl hbridge]
      rw [hstep]
      have hdeep2 : ∀ x ∈ rest ++ specChildren P e, 1 ≤ x._depth := by
        intro x hx
        rcases List.mem_append.mp hx with hx | hx
        · exact hdeep x (List.mem_cons_of_mem _ hx)
        · exact specChildren_deep P e x hx
      have hle2 : (((n1 + 1) + n : Nat) : Int) ≤ P.maxElements := by
        push_cast at hle ⊢
        omega
      rw [ih (n1 + 1) (res ++ [emitRecordAt P n1 e]) (rest ++ specChildren P e) hdeep2
        (by omega) hle2]
      have hq : queuePop P (n + 1) (e :: rest) =
          e :: queuePop P n (rest ++ specChildren P e) := rfl
      have hr : queueRest P (n + 1) (e :: rest) =
          queueRest P n (rest ++ specChildren P e) := rfl
      rw [hq, hr]
      have hemit : emitFrom P n1 (e :: queuePop P n (rest ++ specChildren P e)) =
          emitRecordAt P n1 e :: emitFrom P (n1 + 1) (queuePop P n (rest ++ specChildren P e)) := rfl
      rw [hemit]
      rw [List.append_assoc]
      rfl

/-- The value of the generated expression, described by the FIFO queue
semantics: with `maxElements = m >= 0`, the `result` field holds one normal
record per node popped during the first `m` iterations (ordered by iteration
index) followed by the overrun marker exactly when the worklist is not yet
exhausted, and the `subLevelsToInspect` field holds the worklist left after
the final (marker) iteration also popped its head. -/
theorem graphDescend_queue (P : GDParams) (root : BVal) (m : Nat)
    (hm : P.maxElements = (m : Int)) :
    graphDescend P root =
      { result := emitFrom P 0 (queuePop P m [rootNode root]) ++
          (if queueRest P m [rootNode root] = [] then [] else [overrunMarker])
        subLevelsToInspect := queueRest P (m + 1) [rootNode root] } := by
  unfold graphDescend
  have hrange : (P.maxElements + 1).toNat = m + 1 := by omega
  rw [hrange, List.range_eq_range' (m + 1), List.range'_succ 0 m 1]
  rw [List.foldl_cons]
  have hbridge0 : (if ((0 : Nat) : Int) ≤ 0 then P.startWith else P.connectToField) =
      activeFieldName P (rootNode root) :=
    fname_bridge P 0 (rootNode root) (by constructor <;> intro <;> rfl)
  cases m with
  | zero =>
    have hmark : ((0 : Nat) : Int) ≥ P.maxElements := by rw [hm]
    have hstep : graphStep P (initState root) 0 =
        ⟨[overrunMarker], [] ++ specChildren P (rootNode root)⟩ := by
      unfold graphStep
      rw [stepEmission_marker P 0 (initState root) (rootNode root) rfl hmark,
        stepSubLevels_cons P 0 (initState root) (rootNode root) [] rfl hbridge0]
      rfl
    rw [hstep]
    rw [show queuePop P 0 [rootNode root] = [] from rfl]
    rw [show queueRest P 0 [rootNode root] = [rootNode root] from rfl]
    rw [if_neg (List.cons_ne_nil _ _)]
    rw [show queueRest P 1 [rootNode root] = [] ++ specChildren P (rootNode root) from rfl]
    rfl
  | succ m1 =>
    have hnotm : ¬ ((0 : Nat) : Int) ≥ P.maxElements := by
      rw [hm]
      push_cast
      omega
    have hstep : graphStep P (initState root) 0 =
        ⟨[] ++ [emitRecordAt P 0 (rootNode root)], [] ++ specChildren P (rootNode root)⟩ := by
      unfold graphStep
      rw [stepEmission_normal P 0 (initState root) (rootNode root) rfl hnotm hbridge0,
        stepSubLevels_cons P 0 (initState root) (rootNode root) [] rfl hbridge0]
      rfl
    rw [hstep]
    have hsplit : List.range' 1 (m1 + 1) = List.range' 1 m1 ++ [m1 + 1] := by
      have h := List.range'_append 1 m1 1 1
      simp only [List.range'_one, one_mul] at h
      rw [Nat.add_comm 1 m1] at h
      exact h.symm
    rw [hsplit, List.foldl_append]
    have hw1deep : ∀ x ∈ ([] : List SubLevel) ++ specChildren P (rootNode root), 1 ≤ x._depth := by
      intro x hx
      rw [List.nil_append] at hx
      exact specChildren_deep P (rootNode root) x hx
    rw [run_normal P m1 1 ([] ++ [emitRecordAt P 0 (rootNode root)])
      ([] ++ specChildren P (rootNode root)) hw1deep (le_refl 1) (by rw [hm]; push_cast; omega)]
    rw [show queuePop P (m1 + 1) [rootNode root] =
      rootNode root :: queuePop P m1 ([] ++ specChildren P (rootNode root)) from rfl]
    rw [show emitFrom P 0 (rootNode root :: queuePop P m1 ([] ++ specChildren P (rootNode root))) =
      emitRecordAt P 0 (rootNode root) ::
        emitFrom P 1 (queuePop P m1 ([] ++ specChildren P (rootNode root))) from rfl]
    have hrest2 : queueRest P (m1 + 1 + 1) [rootNode root] =
        queueRest P 1 (queueRest P m1 ([] ++ specChildren P (rootNode root))) := by
      rw [← queueRest_add]
      rfl
    rw [hrest2]
    rw [show queueRest P (m1 + 1) [rootNode root] =
      queueRest P m1 ([] ++ specChildren P (rootNode root)) from rfl]
    have hmark : ((m1 + 1 : Nat) : Int) ≥ P.maxElements := by
      rw [hm]
    cases hwm : queueRest P m1 ([] ++ specChildren P (rootNode root)) with
    | nil =>
      have hstep2 : graphStep P ⟨([] ++ [emitRecordAt P 0 (rootNode root)]) ++
          emitFrom P 1 (queuePop P m1 ([] ++ specChildren P (rootNode root))), []⟩ (m1 + 1) =
          ⟨([] ++ [emitRecordAt P 0 (rootNode root)]) ++
            emitFrom P 1 (queuePop P m1 ([] ++ specChildren P (rootNode root))), []⟩ := by
        unfold graphStep
        rw [stepEmission_empty P (m1 + 1) _ rfl, stepSubLevels_empty P (m1 + 1) _ rfl,
          List.append_nil]
      rw [List.foldl_cons, hstep2, List.foldl_nil, if_pos rfl, List.append_nil, queueRest_nil]
      simp
    | cons e2 rest2 =>
      have hdeep2 : 1 ≤ e2._depth := by
        have hall := deep_queueRest P m1 ([] ++ specChildren P (rootNode root)) hw1deep
        rw [hwm] at hall
        exact hall e2 (List.mem_cons_self _ _)
      have hbridge2 : (if ((m1 + 1 : Nat) : Int) ≤ 0 then P.startWith else P.connectToField) =
          activeFieldName P e2 :=
        fname_bridge P (m1 + 1) e2 (by omega)
      have hstep2 : graphStep P ⟨([] ++ [emitRecordAt P 0 (rootNode root)]) ++
          emitFrom P 1 (queuePop P m1 ([] ++ specChildren P (rootNode root))), e2 :: rest2⟩ (m1 + 1) =
          ⟨(([] ++ [emitRecordAt P 0 (rootNode root)]) ++
            emitFrom P 1 (queuePop P m1 ([] ++ specChildren P (rootNode root)))) ++ [overrunMarker],
            rest2 ++ specChildren P e2⟩ := by
        unfold graphStep
        rw [stepEmission_marker P (m1 + 1)
            ⟨([] ++ [emitRecordAt P 0 (rootNode root)]) ++
              emitFrom P 1 (queuePop P m1 ([] ++ specChildren P (rootNode root))), e2 :: rest2⟩
            e2 rfl hmark,
          stepSubLevels_cons P (m1 + 1)
            ⟨([] ++ [emitRecordAt P 0 (rootNode root)]) ++
              emitFrom P 1 (queuePop P m1 ([] ++ specChildren P (rootNode root))), e2 :: rest2⟩
            e2 rest2 rfl hbridge2]
      rw [List.foldl_cons, hstep2, List.foldl_nil, if_neg (List.cons_ne_nil _ _)]
      rw [show queueRest P 1 (e2 :: rest2) = rest2 ++ specChildren P e2 from rfl]
      simp

/-- The run described through the breadth-first level enumeration: the normal
records are exactly the first `maxElements` entries of the enumeration, the
marker appears exactly when more nodes are reachable than `maxElements`. -/
theorem graphDescend_bfs (P : GDParams) (root : BVal) (m : Nat)
    (hm : P.maxElements = (m : Int)) :
    graphDescend P root =
      { result := emitFrom P 0 ((bfsEnum P root).take m) ++
          (if totalReachable P root ≤ m then [] else [overrunMarker])
        subLevelsToInspect := queueRest P (m + 1) [rootNode root] } := by
  rw [graphDescend_queue P root m hm, bfsEnum_take]
  have hiff := bfsEnum_rest_iff P root m
  by_cases h : queueRest P m [rootNode root] = []
  · rw [if_pos h, if_pos (hiff.mp h)]
  · rw [if_neg h, if_neg (fun hle => h (hiff.mpr hle))]

theorem emitFrom_length (P : GDParams) :
    ∀ (l : List SubLevel) (j : Nat), (emitFrom P j l).length = l.length := by
  intro l
  induction l with
  | nil => intro j; rfl
  | cons e rest ih =>
    intro j
    show (emitFrom P j (e :: rest)).length = rest.length + 1
    rw [show emitFrom P j (e :: rest) =
      emitRecordAt P j e :: emitFrom P (j + 1) rest from rfl]
    simp [ih (j + 1)]

theorem emitFrom_getElem? (P : GDParams) :
    ∀ (l : List SubLevel) (j t : Nat),
      (emitFrom P j l)[t]? = (l[t]?).map (fun e => emitRecordAt P (j + t) e) := by
  intro l
  induction l with
  | nil => intro j t; simp [emitFrom]
  | cons e rest ih =>
    intro j t
    rw [show emitFrom P j (e :: rest) =
      emitRecordAt P j e :: emitFrom P (j + 1) rest from rfl]
    cases t with
    | zero => simp
    | succ t1 =>
      rw [List.getElem?_cons_succ, List.getElem?_cons_succ, ih (j + 1) t1]
      have : j + 1 + t1 = j + (t1 + 1) := by omega
      rw [this]

/-- Inverting a position of the run result: every element is either the
normal record of the corresponding enumeration entry, or the final overrun
marker. -/
theorem result_elem_inv (P : GDParams) (root : BVal) (m : Nat)
    (hm : P.maxElements = (m : Int)) (j : Nat) (r : BVal)
    (h : ((graphDescend P root).result)[j]? = some r) :
    (∃ e, (bfsEnum P root)[j]? = some e ∧ j < m ∧ r = emitRecordAt P j e) ∨
      (r = overrunMarker ∧ j = min m (totalReachable P root) ∧
        m < totalReachable P root) := by
  rw [graphDescend_bfs P root m hm] at h
  have hlen : (emitFrom P 0 ((bfsEnum P root).take m)).length =
      min m (totalReachable P root) := by
    rw [emitFrom_length, List.length_take]
    rfl
  by_cases hj : j < min m (totalReachable P root)
  · left
    rw [List.getElem?_append, if_pos (by rw [hlen]; exact hj)] at h
    rw [emitFrom_getElem?] at h
    rw [List.getElem?_take, if_pos (by omega)] at h
    have hjT : j < totalReachable P root := by omega
    rw [List.getElem?_eq_getElem hjT] at h
    refine ⟨(bfsEnum P root)[j], List.getElem?_eq_getElem hjT, by omega, ?_⟩
    have h2 : emitRecordAt P (0 + j) ((bfsEnum P root)[j]) = r := by
      simpa using h
    rw [← h2, Nat.zero_add]
  · right
    rw [List.getElem?_append, if_neg (by rw [hlen]; exact hj)] at h
    by_cases hT : totalReachable P root ≤ m
    · rw [if_pos hT] at h
      simp at h
    · rw [if_neg hT] at h
      have hmin : min m (totalReachable P root) = m := by omega
      rw [hlen, hmin] at h
      have hj0 : j - m = 0 := by
        by_contra hne
        have : 1 ≤ j - m := by omega
        rw [show j - m = (j - m - 1) + 1 from by omega] at h
        simp at h
      rw [hj0] at h
      simp only [List.getElem?_cons_zero] at h
      injection h with h2
      refine ⟨h2.symm, by omega, by omega⟩

theorem result_getElem?_normal (P : GDParams) (root : BVal) (m : Nat)
    (hm : P.maxElements = (m : Int)) (j : Nat) (e : SubLevel) (hj : j < m)
    (he : (bfsEnum P root)[j]? = some e) :
    ((graphDescend P root).result)[j]? = some (emitRecordAt P j e) := by
  have hjT : j < totalReachable P root := (List.getElem?_eq_some.mp he).1
  rw [graphDescend_bfs P root m hm]
  show (emitFrom P 0 ((bfsEnum P root).take m) ++ _)[j]? = _
  have hjT2 : j < (bfsEnum P root).length := hjT
  rw [List.getElem?_append, if_pos (by rw [emitFrom_length, List.length_take]; omega),
    emitFrom_getElem?, List.getElem?_take, if_pos hj, he]
  simp

theorem mem_emitFrom (P : GDParams) (l : List SubLevel) (j : Nat) (a : BVal)
    (h : a ∈ emitFrom P j l) :
    ∃ t e, l[t]? = some e ∧ a = emitRecordAt P (j + t) e := by
  obtain ⟨t, ht, he⟩ := List.getElem_of_mem h
  have h? : (emitFrom P j l)[t]? = some a := by
    rw [List.getElem?_eq_getElem ht, he]
  rw [emitFrom_getElem? P l j t] at h?
  cases hl : l[t]? with
  | none => rw [hl] at h?; simp at h?
  | some e =>
    rw [hl] at h?
    simp only [Option.map] at h?
    injection h? with h2
    exact ⟨t, e, hl, h2.symm⟩

theorem marker_mem_iff (P : GDParams) (root : BVal) (m : Nat)
    (hm : P.maxElements = (m : Int)) :
    overrunMarker ∈ (graphDescend P root).result ↔ m < totalReachable P root := by
  rw [graphDescend_bfs P root m hm]
  constructor
  · intro h
    by_contra hT
    push_neg at hT
    rw [if_pos hT, List.append_nil] at h
    obtain ⟨t, e, _, habs⟩ := mem_emitFrom P _ 0 _ h
    exact emitRecord_ne_marker P (0 + t) e (activeFieldName P e) habs.symm
  · intro hT
    rw [if_neg (by omega)]
    exact List.mem_append_right _ (List.mem_singleton.mpr rfl)

theorem result_length (P : GDParams) (root : BVal) (m : Nat)
    (hm : P.maxElements = (m : Int)) :
    ((graphDescend P root).result).length =
      min m (totalReachable P root) + (if totalReachable P root ≤ m then 0 else 1) := by
  rw [graphDescend_bfs P root m hm]
  show (emitFrom P 0 ((bfsEnum P root).take m) ++ _).length = _
  rw [List.length_append, emitFrom_length, List.length_take]
  by_cases h : totalReachable P root ≤ m
  · rw [if_pos h, if_pos h]
    rfl
  · rw [if_neg h, if_neg h]
    rfl

theorem marker_count_one (P : GDParams) (root : BVal) (m : Nat)
    (hm : P.maxElements = (m : Int)) (hT : m < totalReachable P root) :
    ((graphDescend P root).result).count overrunMarker = 1 := by
  rw [graphDescend_bfs P root m hm]
  show (emitFrom P 0 ((bfsEnum P root).take m) ++ _).count _ = 1
  rw [if_neg (by omega), List.count_append]
  have h0 : (emitFrom P 0 ((bfsEnum P root).take m)).count overrunMarker = 0 := by
    rw [List.count_eq_zero]
    intro habs
    obtain ⟨t, e, _, h2⟩ := mem_emitFrom P _ 0 _ habs
    exact emitRecord_ne_marker P (0 + t) e (activeFieldName P e) h2.symm
  rw [h0]
  rfl

theorem marker_at_end (P : GDParams) (root : BVal) (m : Nat)
    (hm : P.maxElements = (m : Int)) (hT : m < totalReachable P root) :
    ((graphDescend P root).result).length = m + 1 ∧
      ((graphDescend P root).result)[m]? = some overrunMarker := by
  have hT2 : totalReachable P root = (bfsEnum P root).length := rfl
  constructor
  · rw [result_length P root m hm, if_neg (by omega)]
    omega
  · rw [graphDescend_bfs P root m hm]
    show (emitFrom P 0 ((bfsEnum P root).take m) ++ _)[m]? = _
    have hlen : (emitFrom P 0 ((bfsEnum P root).take m)).length = m := by
      rw [emitFrom_length, List.length_take]
      omega
    rw [List.getElem?_append, if_neg (by omega), hlen, Nat.sub_self, if_neg (by omega)]
    rfl

/-! ### Propagating the data-model shape along the traversal -/

theorem isDocB_iff (v : BVal) : isDocB v = true ↔ ∃ fs, v = BVal.doc fs := by
  cases v <;> simp [isDocB]

theorem wfFields_lookup (f : String) :
    ∀ (fs : List (String × BVal)) (v : BVal), wfFields fs = true →
      lookupField f fs = some v → wfB v = true := by
  intro fs
  induction fs with
  | nil => intro v _ hv; simp [lookupField] at hv
  | cons kv rest ih =>
    intro v hwf hv
    obtain ⟨k, w⟩ := kv
    have hwf2 : wfB w = true ∧ wfFields rest = true := by
      simpa [wfFields, Bool.and_eq_true] using hwf
    by_cases hk : k = f
    · have : w = v := by simpa [lookupField, hk] using hv
      exact this ▸ hwf2.1
    · exact ih v hwf2.2 (by simpa [lookupField, hk] using hv)

theorem wfArr_mem : ∀ (xs : List BVal) (c : BVal), wfArr xs = true → c ∈ xs →
    isDocB c = true ∧ wfB c = true := by
  intro xs
  induction xs with
  | nil => intro c _ hc; cases hc
  | cons x rest ih =>
    intro c hwf hc
    have hwf2 : (isDocB x = true ∧ wfB x = true) ∧ wfArr rest = true := by
      simpa [wfArr, Bool.and_eq_true, and_assoc] using hwf
    rcases List.mem_cons.mp hc with rfl | hc
    · exact hwf2.1
    · exact ih c hwf2.2 hc

/-- Whether a node is a well-formed document (root and every traversed child
are, when the input obeys the data model). -/
def nodeWF (e : SubLevel) : Prop := isDocB e.subdoc = true ∧ wfB e.subdoc = true

theorem childNodes_wf (fname : String) (md : Int) (e : SubLevel) (h : nodeWF e) :
    ∀ c ∈ childNodes fname md e, nodeWF c := by
  intro c hc
  rw [mem_childNodes] at hc
  obtain ⟨cs, k, hg, hd, hk, rfl⟩ := hc
  obtain ⟨fs, hfs⟩ := (isDocB_iff e.subdoc).mp h.1
  rw [hfs] at hg
  have hlv : lookupField fname fs = some (BVal.arr cs) := hg
  have hwf : wfFields fs = true := by
    have h2 := h.2
    rw [hfs] at h2
    exact h2
  have hwfarr : wfB (BVal.arr cs) = true :=
    wfFields_lookup fname fs (BVal.arr cs) hwf hlv
  have hwfarr2 : wfArr cs = true := hwfarr
  have hmem : cs.getD k BVal.null ∈ cs := by
    rw [List.getD_eq_getElem cs BVal.null hk]
    exact List.getElem_mem hk
  exact wfArr_mem cs _ hwfarr2 hmem

theorem metaFreeFields_cons (k : String) (v : BVal) (rest : List (String × BVal)) :
    metaFreeFields ((k, v) :: rest) =
      (!(reservedNames.contains k) && metaFreeB v && metaFreeFields rest) := rfl

theorem metaFreeFields_mem : ∀ (fs : List (String × BVal)) (kv : String × BVal),
    metaFreeFields fs = true → kv ∈ fs →
      reservedNames.contains kv.1 = false ∧ metaFreeB kv.2 = true := by
  intro fs
  induction fs with
  | nil => intro kv _ hkv; cases hkv
  | cons hd rest ih =>
    intro kv hmf hkv
    obtain ⟨k, v⟩ := hd
    rw [metaFreeFields_cons] at hmf
    have h3 : (!(reservedNames.contains k)) = true ∧ metaFreeB v = true ∧
        metaFreeFields rest = true := by
      simpa [Bool.and_eq_true, and_assoc] using hmf
    rcases List.mem_cons.mp hkv with rfl | hkv
    · exact ⟨by simpa using h3.1, h3.2.1⟩
    · exact ih kv h3.2.2 hkv

theorem metaFreeFields_lookup (f : String) :
    ∀ (fs : List (String × BVal)) (v : BVal), metaFreeFields fs = true →
      lookupField f fs = some v → metaFreeB v = true := by
  intro fs
  induction fs with
  | nil => intro v _ hv; simp [lookupField] at hv
  | cons kv rest ih =>
    intro v hmf hv
    obtain ⟨k, w⟩ := kv
    rw [metaFreeFields_cons] at hmf
    have h3 : (!(reservedNames.contains k)) = true ∧ metaFreeB w = true ∧
        metaFreeFields rest = true := by
      simpa [Bool.and_eq_true, and_assoc] using hmf
    by_cases hk : k = f
    · have : w = v := by simpa [lookupField, hk] using hv
      exact this ▸ h3.2.1
    · exact ih v h3.2.2 (by simpa [lookupField, hk] using hv)

theorem metaFreeArr_mem : ∀ (xs : List BVal) (c : BVal), metaFreeArr xs = true → c ∈ xs →
    metaFreeB c = true := by
  intro xs
  induction xs with
  | nil => intro c _ hc; cases hc
  | cons x rest ih =>
    intro c hmf hc
    have h2 : metaFreeB x = true ∧ metaFreeArr rest = true := by
      simpa [metaFreeArr, Bool.and_eq_true] using hmf
    rcases List.mem_cons.mp hc with rfl | hc
    · exact h2.1
    · exact ih c h2.2 hc

theorem childNodes_mf (fname : String) (md : Int) (e : SubLevel)
    (h : metaFreeB e.subdoc = true) :
    ∀ c ∈ childNodes fname md e, metaFreeB c.subdoc = true := by
  intro c hc
  rw [mem_childNodes] at hc
  obtain ⟨cs, k, hg, hd, hk, rfl⟩ := hc
  cases hsub : e.subdoc with
  | doc fs =>
    rw [hsub] at hg h
    have hlv : lookupField fname fs = some (BVal.arr cs) := hg
    have harrmf : metaFreeB (BVal.arr cs) = true := metaFreeFields_lookup fname fs _ h hlv
    have harrmf2 : metaFreeArr cs = true := harrmf
    have hmem : cs.getD k BVal.null ∈ cs := by
      rw [List.getD_eq_getElem cs BVal.null hk]
      exact List.getElem_mem hk
    exact metaFreeArr_mem cs _ harrmf2 hmem
  | null => rw [hsub] at hg; simp [getField] at hg
  | bool b => rw [hsub] at hg; simp [getField] at hg
  | int n => rw [hsub] at hg; simp [getField] at hg
  | str s => rw [hsub] at hg; simp [getField] at hg
  | arr xs => rw [hsub] at hg; simp [getField] at hg

theorem levelIter_invariant (P : GDParams) (Q : SubLevel → Prop)
    (hpres : ∀ e, Q e → ∀ c ∈ specChildren P e, Q c) :
    ∀ k (w : List SubLevel), (∀ e ∈ w, Q e) → ∀ e ∈ levelIter P k w, Q e := by
  intro k
  induction k with
  | zero => intro w _ e he; cases he
  | succ k ih =>
    intro w hw e he
    rcases List.mem_append.mp he with he | he
    · exact hw e he
    · refine ih (nextLevel P w) ?_ e he
      intro c hc
      rw [mem_nextLevel] at hc
      obtain ⟨p, hp, hcp⟩ := hc
      exact hpres p (hw p hp) c hcp

theorem bfsEnum_wf (P : GDParams) (root : BVal) (hd : isDocB root = true)
    (hw : wfB root = true) : ∀ e ∈ bfsEnum P root, nodeWF e := by
  apply levelIter_invariant P nodeWF (fun e he c hc => childNodes_wf _ _ e he c hc)
  intro e he
  rw [List.mem_singleton] at he
  rw [he]
  exact ⟨hd, hw⟩

theorem bfsEnum_mf (P : GDParams) (root : BVal) (hm : metaFreeB root = true) :
    ∀ e ∈ bfsEnum P root, metaFreeB e.subdoc = true := by
  apply levelIter_invariant P (fun e => metaFreeB e.subdoc = true)
    (fun e he c hc => childNodes_mf _ _ e he c hc)
  intro e he
  rw [List.mem_singleton] at he
  rw [he]
  exact hm

theorem metaFree_keys (v : BVal) (hm : metaFreeB v = true) :
    ∀ kv ∈ objectToArray v, kv.1 ≠ "_ord" ∧ kv.1 ≠ "_depth" ∧ kv.1 ≠ "_idx" ∧
      kv.1 ≠ "schema" := by
  intro kv hkv
  cases v with
  | doc fs =>
    have h2 := metaFreeFields_mem fs kv hm hkv
    have hnm : kv.1 ∉ reservedNames := by
      intro habs
      have hc := List.elem_eq_true_of_mem habs
      have h1 := h2.1
      rw [List.contains, hc] at h1
      cases h1
    simp only [reservedNames, List.mem_cons, List.not_mem_nil] at hnm
    push_neg at hnm
    exact ⟨hnm.1, hnm.2.1, hnm.2.2.1, hnm.2.2.2.1⟩
  | null => cases hkv
  | bool b => cases hkv
  | int n => cases hkv
  | str s => cases hkv
  | arr xs => cases hkv

/-! ### Decimal path segments: digits of `$toString` carry no underscore and
determine the number -/

/-- The decimal digits of a natural number, most significant first. -/
def natDigits (n : Nat) : List Char :=
  if n < 10 then [Nat.digitChar n]
  else natDigits (n / 10) ++ [Nat.digitChar (n % 10)]
decreasing_by exact Nat.div_lt_self (by omega) (by omega)

theorem toDigitsCore_acc (b : Nat) :
    ∀ (fuel n : Nat) (acc : List Char),
      Nat.toDigitsCore b fuel n acc = Nat.toDigitsCore b fuel n [] ++ acc := by
  intro fuel
  induction fuel with
  | zero => intro n acc; rfl
  | succ fuel ih =>
    intro n acc
    show (if n / b = 0 then _ else _) = _
    by_cases h : n / b = 0
    · rw [if_pos h]
      show Nat.digitChar (n % b) :: acc =
        Nat.toDigitsCore b (fuel + 1) n [] ++ acc
      have : Nat.toDigitsCore b (fuel + 1) n [] = [Nat.digitChar (n % b)] := by
        show (if n / b = 0 then _ else _) = _
        rw [if_pos h]
      rw [this]
      rfl
    · rw [if_neg h]
      have hr : Nat.toDigitsCore b (fuel + 1) n [] =
          Nat.toDigitsCore b fuel (n / b) [] ++ [Nat.digitChar (n % b)] := by
        show (if n / b = 0 then _ else _) = _
        rw [if_neg h]
        exact ih (n / b) [Nat.digitChar (n % b)]
      rw [hr, ih (n / b) (Nat.digitChar (n % b) :: acc), List.append_assoc]
      rfl

theorem toDigitsCore_eq_natDigits :
    ∀ (fuel n : Nat), n < fuel → Nat.toDigitsCore 10 fuel n [] = natDigits n := by
  intro fuel
  induction fuel with
  | zero => intro n h; omega
  | succ fuel ih =>
    intro n h
    show (if n / 10 = 0 then _ else _) = _
    by_cases h10 : n < 10
    · rw [if_pos (Nat.div_eq_of_lt h10)]
      rw [natDigits, if_pos h10, Nat.mod_eq_of_lt h10]
    · have hne : ¬ n / 10 = 0 := by
        intro habs
        have := Nat.div_eq_of_lt (by omega : n < 10 * 1)
        omega
      rw [if_neg hne]
      rw [toDigitsCore_acc 10 fuel (n / 10) [Nat.digitChar (n % 10)]]
      have hlt : n / 10 < fuel := by
        have h1 : n / 10 < n := Nat.div_lt_self (by omega) (by omega)
        omega
      rw [ih (n / 10) hlt]
      conv_rhs => rw [natDigits]
      rw [if_neg h10]

theorem natRepr_data (n : Nat) : (Nat.repr n).data = natDigits n := by
  show (Nat.toDigits 10 n).asString.data = _
  have h1 : (Nat.toDigits 10 n).asString.data = Nat.toDigits 10 n := rfl
  rw [h1]
  show Nat.toDigitsCore 10 (n + 1) n [] = _
  exact toDigitsCore_eq_natDigits (n + 1) n (by omega)

theorem digitChar_facts (d : Nat) (h : d < 10) :
    Nat.digitChar d ≠ '_' ∧ (Nat.digitChar d).toNat = 48 + d := by
  interval_cases d <;> exact ⟨by decide, by decide⟩

theorem natDigits_no_underscore : ∀ n : Nat, '_' ∉ natDigits n := by
  intro n
  induction n using Nat.strong_induction_on with
  | _ n ih =>
    rw [natDigits]
    by_cases h : n < 10
    · rw [if_pos h]
      intro hmem
      rw [List.mem_singleton] at hmem
      exact (digitChar_facts n h).1 hmem.symm
    · rw [if_neg h]
      intro hmem
      rcases List.mem_append.mp hmem with hmem | hmem
      · exact ih (n / 10) (Nat.div_lt_self (by omega) (by omega)) hmem
      · rw [List.mem_singleton] at hmem
        exact (digitChar_facts (n % 10) (Nat.mod_lt n (by omega))).1 hmem.symm

/-- Reading decimal digits back. -/
def parseDigits (l : List Char) : Nat :=
  l.foldl (fun a c => a * 10 + (c.toNat - 48)) 0

theorem parseDigits_append_one (l : List Char) (d : Char) :
    parseDigits (l ++ [d]) = (parseDigits l) * 10 + (d.toNat - 48) := by
  show (l ++ [d]).foldl _ 0 = _
  rw [List.foldl_append]
  rfl

theorem parseDigits_natDigits : ∀ n : Nat, parseDigits (natDigits n) = n := by
  intro n
  induction n using Nat.strong_induction_on with
  | _ n ih =>
    rw [natDigits]
    by_cases h : n < 10
    · rw [if_pos h]
      show 0 * 10 + ((Nat.digitChar n).toNat - 48) = n
      rw [(digitChar_facts n h).2]
      omega
    · rw [if_neg h]
      rw [parseDigits_append_one, ih (n / 10) (Nat.div_lt_self (by omega) (by omega))]
      rw [(digitChar_facts (n % 10) (Nat.mod_lt n (by omega))).2]
      omega

theorem natRepr_injective (a b : Nat) (h : Nat.repr a = Nat.repr b) : a = b := by
  have hd : natDigits a = natDigits b := by
    rw [← natRepr_data, ← natRepr_data, h]
  rw [← parseDigits_natDigits a, ← parseDigits_natDigits b, hd]

theorem natRepr_no_underscore (n : Nat) : '_' ∉ (Nat.repr n).data := by
  rw [natRepr_data]
  exact natDigits_no_underscore n

/-! ### Paths encode positions injectively -/

theorem string_ext (a b : String) (h : a.data = b.data) : a = b := by
  cases a
  cases b
  simp only at h
  rw [h]

theorem path_data (p : String) (k : Nat) :
    (p ++ "_" ++ Nat.repr k).data = p.data ++ '_' :: (Nat.repr k).data := by
  rw [String.data_append, String.data_append,
    (rfl : ("_" : String).data = ['_']), List.append_assoc]
  rfl

theorem sep_inj : ∀ (p1 p2 s1 s2 : List Char),
    '_' ∉ s1 → '_' ∉ s2 → p1.count '_' = p2.count '_' →
    p1 ++ '_' :: s1 = p2 ++ '_' :: s2 → p1 = p2 ∧ s1 = s2 := by
  intro p1
  induction p1 with
  | nil =>
    intro p2 s1 s2 h1 h2 hc he
    cases p2 with
    | nil =>
      constructor
      · rfl
      · injection he
    | cons c p2t =>
      exfalso
      rw [List.nil_append] at he
      injection he with hc1 hrest
      apply h1
      rw [hrest]
      exact List.mem_append_right _ (List.mem_cons_self _ _)
  | cons c p1t ih =>
    intro p2 s1 s2 h1 h2 hc he
    cases p2 with
    | nil =>
      exfalso
      rw [List.nil_append] at he
      injection he with hc1 hrest
      apply h2
      rw [← hrest]
      exact List.mem_append_right _ (List.mem_cons_self _ _)
    | cons c2 p2t =>
      injection he with hc1 hrest
      subst hc1
      have hcount : p1t.count '_' = p2t.count '_' := by
        simp only [List.count_cons] at hc
        omega
      obtain ⟨hp, hs⟩ := ih p2t s1 s2 h1 h2 hcount hrest
      exact ⟨by rw [hp], hs⟩

theorem path_ext_inj (p1 p2 : String) (k1 k2 : Nat)
    (hc : p1.data.count '_' = p2.data.count '_')
    (he : p1 ++ "_" ++ Nat.repr k1 = p2 ++ "_" ++ Nat.repr k2) : p1 = p2 ∧ k1 = k2 := by
  have hdata : p1.data ++ '_' :: (Nat.repr k1).data = p2.data ++ '_' :: (Nat.repr k2).data := by
    rw [← path_data, ← path_data, he]
  obtain ⟨hp, hs⟩ := sep_inj p1.data p2.data (Nat.repr k1).data (Nat.repr k2).data
    (natRepr_no_underscore k1) (natRepr_no_underscore k2) hc hdata
  constructor
  · exact string_ext _ _ hp
  · exact natRepr_injective k1 k2 (string_ext _ _ hs)

theorem uCount_child (p : String) (k : Nat) :
    (p ++ "_" ++ Nat.repr k).data.count '_' = p.data.count '_' + 1 := by
  rw [path_data, List.count_append, List.count_cons]
  rw [List.count_eq_zero.mpr (natRepr_no_underscore k)]
  simp

/-! ### Pairwise structure of the enumeration -/

theorem specChildren_idx (P : GDParams) (e c : SubLevel) (h : c ∈ specChildren P e) :
    ∃ k, c._idx = e._idx ++ "_" ++ Nat.repr k := by
  rw [specChildren, mem_childNodes] at h
  obtain ⟨cs, k, _, _, _, rfl⟩ := h
  exact ⟨k, rfl⟩

theorem nextLevel_const (P : GDParams) (μ : SubLevel → Nat)
    (hstep : ∀ e c, c ∈ specChildren P e → μ c = μ e + 1)
    (w : List SubLevel) (d : Nat) (h : ∀ e ∈ w, μ e = d) :
    ∀ c ∈ nextLevel P w, μ c = d + 1 := by
  intro c hc
  rw [mem_nextLevel] at hc
  obtain ⟨p, hp, hcp⟩ := hc
  rw [hstep p c hcp, h p hp]

theorem levelIter_lb (P : GDParams) (μ : SubLevel → Nat)
    (hstep : ∀ e c, c ∈ specChildren P e → μ c = μ e + 1) :
    ∀ k (w : List SubLevel) (d : Nat), (∀ e ∈ w, d ≤ μ e) →
      ∀ x ∈ levelIter P k w, d ≤ μ x := by
  intro k
  induction k with
  | zero => intro w d _ x hx; cases hx
  | succ k ih =>
    intro w d hw x hx
    rcases List.mem_append.mp hx with hx | hx
    · exact hw x hx
    · refine ih (nextLevel P w) d ?_ x hx
      intro c hc
      rw [mem_nextLevel] at hc
      obtain ⟨p, hp, hcp⟩ := hc
      have := hstep p c hcp
      have := hw p hp
      omega

theorem levelIter_pairwise_gen (P : GDParams) (μ : SubLevel → Nat)
    (hstep : ∀ e c, c ∈ specChildren P e → μ c = μ e + 1)
    (R : SubLevel → SubLevel → Prop)
    (hlt : ∀ a b, μ a < μ b → R a b)
    (hnext : ∀ (w : List SubLevel) (d : Nat), (∀ e ∈ w, μ e = d) → List.Pairwise R w →
      List.Pairwise R (nextLevel P w)) :
    ∀ k (w : List SubLevel) (d : Nat), (∀ e ∈ w, μ e = d) → List.Pairwise R w →
      List.Pairwise R (levelIter P k w) := by
  intro k
  induction k with
  | zero => intro w d _ _; exact List.Pairwise.nil
  | succ k ih =>
    intro w d hconst hpw
    rw [show levelIter P (k + 1) w = w ++ levelIter P k (nextLevel P w) from rfl,
      List.pairwise_append]
    refine ⟨hpw, ih (nextLevel P w) (d + 1) (nextLevel_const P μ hstep w d hconst)
      (hnext w d hconst hpw), ?_⟩
    intro a ha b hb
    have hb2 : d + 1 ≤ μ b := by
      refine levelIter_lb P μ hstep k (nextLevel P w) (d + 1) ?_ b hb
      intro c hc
      rw [nextLevel_const P μ hstep w d hconst c hc]
    have ha2 : μ a = d := hconst a ha
    exact hlt a b (by omega)

theorem pairwise_depth_const (l : List SubLevel) (d : Nat)
    (h : ∀ e ∈ l, e._depth = d) :
    l.Pairwise (fun a b => a._depth ≤ b._depth) := by
  induction l with
  | nil => exact List.Pairwise.nil
  | cons a tl ih =>
    refine List.Pairwise.cons ?_ (ih (fun x hx => h x (List.mem_cons_of_mem _ hx)))
    intro b hb
    rw [h a (List.mem_cons_self _ _), h b (List.mem_cons_of_mem _ hb)]

theorem bfsEnum_pairwise_depth (P : GDParams) (root : BVal) :
    (bfsEnum P root).Pairwise (fun a b => a._depth ≤ b._depth) := by
  refine levelIter_pairwise_gen P (fun e => e._depth) (fun e c hc => specChildren_depth P e c hc)
    (fun a b => a._depth ≤ b._depth) (fun a b h => le_of_lt h) ?_
    ((clampMaxDepth P.maxDepth).toNat + 1) [rootNode root] 0 ?_ ?_
  · intro w d hconst _
    exact pairwise_depth_const (nextLevel P w) (d + 1)
      (nextLevel_const P (fun e => e._depth) (fun e c hc => specChildren_depth P e c hc) w d hconst)
  · intro e he
    rw [List.mem_singleton] at he
    rw [he]
    rfl
  · exact List.pairwise_singleton _ _

theorem childNodes_pairwise_idx (fname : String) (md : Int) (e : SubLevel) :
    (childNodes fname md e).Pairwise (fun a b => a._idx ≠ b._idx) := by
  by_cases harr : ∃ cs, getField fname (some e.subdoc) = some (BVal.arr cs)
  · obtain ⟨cs, hc⟩ := harr
    by_cases hd : (e._depth : Int) + 1 ≤ md
    · rw [childNodes_pos fname md e cs hc hd, List.pairwise_map]
      have hlt := List.pairwise_lt_range cs.length
      refine hlt.imp ?_
      intro k1 k2 hk12 habs
      have := path_ext_inj e._idx e._idx k1 k2 rfl habs
      omega
    · rw [childNodes_too_deep fname md e hd]
      exact List.Pairwise.nil
  · rw [childNodes_not_arr fname md e (fun cs hc => harr ⟨cs, hc⟩)]
    exact List.Pairwise.nil

theorem nextLevel_pairwise_idx (P : GDParams) :
    ∀ (w : List SubLevel) (d : Nat), (∀ e ∈ w, e._idx.data.count '_' = d) →
      w.Pairwise (fun a b => a._idx ≠ b._idx) →
      (nextLevel P w).Pairwise (fun a b => a._idx ≠ b._idx) := by
  intro w
  induction w with
  | nil => intro d _ _; exact List.Pairwise.nil
  | cons e w1 ih =>
    intro d hcount hpw
    have hpw2 := List.pairwise_cons.mp hpw
    rw [show nextLevel P (e :: w1) = specChildren P e ++ nextLevel P w1 from rfl,
      List.pairwise_append]
    refine ⟨childNodes_pairwise_idx _ _ e,
      ih d (fun x hx => hcount x (List.mem_cons_of_mem _ hx)) hpw2.2, ?_⟩
    intro a ha b hb habs
    obtain ⟨ka, hka⟩ := specChildren_idx P e a ha
    rw [mem_nextLevel] at hb
    obtain ⟨p, hp, hbp⟩ := hb
    obtain ⟨kb, hkb⟩ := specChildren_idx P p b hbp
    rw [hka, hkb] at habs
    have hcnt : e._idx.data.count '_' = p._idx.data.count '_' := by
      rw [hcount e (List.mem_cons_self _ _), hcount p (List.mem_cons_of_mem _ hp)]
    obtain ⟨hpp, _⟩ := path_ext_inj e._idx p._idx ka kb hcnt habs
    exact hpw2.1 p hp hpp

theorem specChildren_ucount (P : GDParams) (e c : SubLevel) (h : c ∈ specChildren P e) :
    c._idx.data.count '_' = e._idx.data.count '_' + 1 := by
  obtain ⟨k, hk⟩ := specChildren_idx P e c h
  rw [hk, uCount_child]

theorem bfsEnum_pairwise_idx (P : GDParams) (root : BVal) :
    (bfsEnum P root).Pairwise (fun a b => a._idx ≠ b._idx) := by
  refine levelIter_pairwise_gen P (fun e => e._idx.data.count '_')
    (fun e c hc => specChildren_ucount P e c hc)
    (fun a b => a._idx ≠ b._idx) ?_ ?_
    ((clampMaxDepth P.maxDepth).toNat + 1) [rootNode root] 0 ?_ ?_
  · intro a b hlt habs
    have hlt2 : a._idx.data.count '_' < b._idx.data.count '_' := hlt
    rw [habs] at hlt2
    omega
  · intro w d hconst hpw
    exact nextLevel_pairwise_idx P w d hconst hpw
  · intro e he
    rw [List.mem_singleton] at he
    rw [he]
    show ("0" : String).data.count '_' = 0
    decide
  · exact List.pairwise_singleton _ _

/-! ### Every non-root node arises from a parent in the enumeration -/

theorem levelIter_parent (P : GDParams) :
    ∀ k (w : List SubLevel) (x : SubLevel), x ∈ levelIter P k w →
      x ∈ w ∨ ∃ p ∈ levelIter P k w, x ∈ specChildren P p := by
  intro k
  induction k with
  | zero => intro w x hx; cases hx
  | succ k ih =>
    intro w x hx
    rcases List.mem_append.mp hx with hx | hx
    · exact Or.inl hx
    · rcases ih (nextLevel P w) x hx with hx2 | hx2
      · rw [mem_nextLevel] at hx2
        obtain ⟨p, hp, hxp⟩ := hx2
        exact Or.inr ⟨p, List.mem_append_left _ hp, hxp⟩
      · obtain ⟨p, hp, hxp⟩ := hx2
        exact Or.inr ⟨p, List.mem_append_right _ hp, hxp⟩

theorem bfsEnum_parent (P : GDParams) (root : BVal) (x : SubLevel)
    (hx : x ∈ bfsEnum P root) :
    x = rootNode root ∨ ∃ p ∈ bfsEnum P root, x ∈ specChildren P p := by
  rcases levelIter_parent P _ [rootNode root] x hx with h | h
  · exact Or.inl (List.mem_singleton.mp h)
  · exact Or.inr h

theorem bfsEnum_head (P : GDParams) (root : BVal) :
    (bfsEnum P root)[0]? = some (rootNode root) := by
  show (levelIter P ((clampMaxDepth P.maxDepth).toNat + 1) [rootNode root])[0]? = _
  rw [show levelIter P ((clampMaxDepth P.maxDepth).toNat + 1) [rootNode root] =
    [rootNode root] ++
      levelIter P ((clampMaxDepth P.maxDepth).toNat) (nextLevel P [rootNode root]) from rfl]
  rw [List.singleton_append, List.getElem?_cons_zero]

/-! ### Depth bounds on enumerated nodes -/

theorem levelIter_ub (P : GDParams) :
    ∀ k (w : List SubLevel) (d : Nat), (∀ e ∈ w, e._depth = d) →
      ∀ x ∈ levelIter P k w, x._depth < d + k := by
  intro k
  induction k with
  | zero => intro w d _ x hx; cases hx
  | succ k ih =>
    intro w d hconst x hx
    rcases List.mem_append.mp hx with hx | hx
    · rw [hconst x hx]
      omega
    · have := ih (nextLevel P w) (d + 1)
        (nextLevel_const P (fun e => e._depth) (fun e c hc => specChildren_depth P e c hc) w d hconst)
        x hx
      omega

theorem bfsEnum_depth_le (P : GDParams) (root : BVal) :
    ∀ e ∈ bfsEnum P root, e._depth ≤ (clampMaxDepth P.maxDepth).toNat := by
  intro e he
  have := levelIter_ub P ((clampMaxDepth P.maxDepth).toNat + 1) [rootNode root] 0
    (by intro x hx; rw [List.mem_singleton] at hx; rw [hx]; rfl) e he
  omega

theorem bfsEnum_zero (P : GDParams) (root : BVal) (e : SubLevel)
    (h : (bfsEnum P root)[0]? = some e) : e = rootNode root := by
  rw [bfsEnum_head] at h
  injection h with h2
  exact h2.symm

theorem bfsEnum_pos_depth (P : GDParams) (root : BVal) (j : Nat) (e : SubLevel)
    (h : (bfsEnum P root)[j]? = some e) (hj : 1 ≤ j) : 1 ≤ e._depth := by
  have hsplit : bfsEnum P root = [rootNode root] ++
      levelIter P ((clampMaxDepth P.maxDepth).toNat) (nextLevel P [rootNode root]) := rfl
  rw [hsplit] at h
  rw [List.getElem?_append, if_neg (by simp; omega)] at h
  have hmem : e ∈ levelIter P ((clampMaxDepth P.maxDepth).toNat)
      (nextLevel P [rootNode root]) := by
    have h2 := List.getElem?_eq_some.mp h
    obtain ⟨hlt, he⟩ := h2
    exact he ▸ List.getElem_mem hlt
  refine levelIter_lb P (fun e => e._depth) (fun e c hc => specChildren_depth P e c hc)
    _ _ 1 ?_ e hmem
  intro c hc
  rw [mem_nextLevel] at hc
  obtain ⟨p, hp, hcp⟩ := hc
  show 1 ≤ c._depth
  rw [specChildren_depth P p c hcp]
  omega

/-! ### Reading metadata of records for enumerated nodes -/

theorem enum_record_ord (P : GDParams) (j : Nat) (e : SubLevel)
    (hmf : metaFreeB e.subdoc = true) :
    getField "_ord" (some (emitRecordAt P j e)) = some (BVal.int j) :=
  getField_record_ord P j e (fun kv hkv => (metaFree_keys e.subdoc hmf kv hkv).1)

theorem enum_record_depth (P : GDParams) (j : Nat) (e : SubLevel)
    (hmf : metaFreeB e.subdoc = true) :
    getField "_depth" (some (emitRecordAt P j e)) = some (BVal.int e._depth) :=
  getField_record_depth P j e (fun kv hkv => (metaFree_keys e.subdoc hmf kv hkv).2.1)

theorem enum_record_idx (P : GDParams) (j : Nat) (e : SubLevel)
    (hmf : metaFreeB e.subdoc = true) :
    getField "_idx" (some (emitRecordAt P j e)) = some (BVal.str e._idx) :=
  getField_record_idx P j e (fun kv hkv => (metaFree_keys e.subdoc hmf kv hkv).2.2.1)

theorem getField_marker (f : String) : getField f (some overrunMarker) =
    (if ("WARNING" : String) = f then some (BVal.str "The 'maxElements' parameter for graphDescend() was not set to a large enough value to fully descend a nested document") else none) := rfl

/-- Is a value a sequence of documents (an array whose elements are all
documents)?  Within the `wfB` data model this coincides with `$isArray`. -/
def seqOfDocsB : Option BVal → Bool
  | some (BVal.arr cs) => cs.all isDocB
  | _ => false

/-! ## Claim theorems -/

/-- Example for C1: two children but only one element allowed. -/
def exDocC1 : BVal := BVal.doc [("c", BVal.arr [BVal.doc [], BVal.doc []])]

/-- Parameters for the C1 example. -/
def exParamsC1 : GDParams := mkParams "c" none 1 [] 100 false

/-- C1 (counterexample): the claim says evaluating the plan yields exactly the
ordered flat array of Output Records and nothing else, with no residual
traversal state such as the leftover worklist.  In fact the `$reduce` returns
its whole final accumulator: on a well-formed two-child document with
`maxElements = 1` the value carries a non-empty leftover worklist in its
`subLevelsToInspect` field alongside `result`. -/
theorem C1_counterexample :
    (graphDescend exParamsC1 exDocC1).subLevelsToInspect ≠ [] ∧
    (graphDescend exParamsC1 exDocC1).result.length = 2 := by decide

/-- C1 (amended): evaluating the plan yields the final accumulator document:
its `result` field holds exactly the ordered flat array of Output Records
accumulated over the bounded iteration (the emitted prefix of the
breadth-first enumeration, plus the overrun marker exactly when nodes
remain), and its `subLevelsToInspect` field holds the leftover worklist,
which may be non-empty. -/
theorem C1_amended (P : GDParams) (root : BVal) (m : Nat)
    (hm : P.maxElements = (m : Int)) :
    graphDescend P root =
      { result := emitFrom P 0 ((bfsEnum P root).take m) ++
          (if totalReachable P root ≤ m then [] else [overrunMarker])
        subLevelsToInspect := queueRest P (m + 1) [rootNode root] } :=
  graphDescend_bfs P root m hm

/-- C1 (witness): the amended statement evaluated on the two-child example. -/
theorem C1_witness :
    exParamsC1.maxElements = ((1 : Nat) : Int) ∧
    graphDescend exParamsC1 exDocC1 =
      { result := emitFrom exParamsC1 0 ((bfsEnum exParamsC1 exDocC1).take 1) ++
          (if totalReachable exParamsC1 exDocC1 ≤ 1 then [] else [overrunMarker])
        subLevelsToInspect := queueRest exParamsC1 2 [rootNode exDocC1] } :=
  ⟨by decide, C1_amended exParamsC1 exDocC1 1 (by decide)⟩

/-- C2: at every visited node (the worklist head of a step whose index
agrees with the depth test, on a data-model-conforming sub-document),
children are appended to the worklist tail exactly when the active branching
field holds a sequence of documents and the new depth stays within the
clamped maxDepth - each child in original order with depth one deeper - and a
branching field that is absent, null, a scalar or otherwise not a sequence of
documents contributes zero children while the node itself is still emitted as
one normal record, not a marker. -/
theorem C2_step_children (P : GDParams) (i : Nat) (s : AccState) (e : SubLevel)
    (hh : s.subLevelsToInspect.head? = some e)
    (hbr : i = 0 ↔ e._depth = 0)
    (hdoc : isDocB e.subdoc = true) (hwf : wfB e.subdoc = true) :
    (∀ cs, getField (activeFieldName P e) (some e.subdoc) = some (BVal.arr cs) →
      seqOfDocsB (getField (activeFieldName P e) (some e.subdoc)) = true ∧
      ((e._depth : Int) + 1 ≤ clampMaxDepth P.maxDepth →
        stepSubLevels P i s = s.subLevelsToInspect.drop 1 ++
          (List.range cs.length).map (fun k =>
            { _depth := e._depth + 1
              _idx := e._idx ++ "_" ++ Nat.repr k
              subdoc := cs.getD k BVal.null })) ∧
      (¬ ((e._depth : Int) + 1 ≤ clampMaxDepth P.maxDepth) →
        stepSubLevels P i s = s.subLevelsToInspect.drop 1)) ∧
    (seqOfDocsB (getField (activeFieldName P e) (some e.subdoc)) = false →
      stepSubLevels P i s = s.subLevelsToInspect.drop 1 ∧
      (¬ (i : Int) ≥ P.maxElements →
        stepEmission P i s = [emitRecordAt P i e] ∧
        emitRecordAt P i e ≠ overrunMarker)) := by
  have hfb := fname_bridge P i e hbr
  obtain ⟨fs, hfs⟩ := (isDocB_iff e.subdoc).mp hdoc
  have hwfl : wfFields fs = true := by rw [hfs] at hwf; exact hwf
  cases hW : s.subLevelsToInspect with
  | nil => rw [hW] at hh; cases hh
  | cons a rest =>
    have hh2 : (a :: rest).head? = some e := by rw [← hW]; exact hh
    have ha : a = e := Option.some.inj hh2
    subst ha
    have hsub : stepSubLevels P i s = rest ++ specChildren P a :=
      stepSubLevels_cons P i s a rest hW hfb
    have hdrop : List.drop 1 (a :: rest) = rest := rfl
    constructor
    · intro cs hcs
      have hseq : seqOfDocsB (getField (activeFieldName P a) (some a.subdoc)) = true := by
        rw [hcs]
        show cs.all isDocB = true
        rw [List.all_eq_true]
        intro c hc
        have hwfarr : wfB (BVal.arr cs) = true := by
          rw [hfs] at hcs
          exact wfFields_lookup (activeFieldName P a) fs _ hwfl hcs
        exact (wfArr_mem cs c hwfarr hc).1
      refine ⟨hseq, ?_, ?_⟩
      · intro hdep
        rw [hsub, hdrop, specChildren, childNodes_pos (activeFieldName P a)
          (clampMaxDepth P.maxDepth) a cs hcs hdep]
      · intro hdep
        rw [hsub, hdrop, specChildren, childNodes_too_deep _ _ _ hdep, List.append_nil]
    · intro hnoseq
      have hnoarr : ∀ cs, getField (activeFieldName P a) (some a.subdoc) ≠ some (BVal.arr cs) := by
        intro cs hcs
        have hwfarr : wfB (BVal.arr cs) = true := by
          rw [hfs] at hcs
          exact wfFields_lookup (activeFieldName P a) fs _ hwfl hcs
        have : seqOfDocsB (getField (activeFieldName P a) (some a.subdoc)) = true := by
          rw [hcs]
          show cs.all isDocB = true
          rw [List.all_eq_true]
          intro c hc
          exact (wfArr_mem cs c hwfarr hc).1
        rw [hnoseq] at this
        cases this
      refine ⟨?_, ?_⟩
      · rw [hsub, hdrop, specChildren, childNodes_not_arr _ _ _ hnoarr, List.append_nil]
      · intro hlt
        exact ⟨stepEmission_normal P i s a hh hlt hfb,
          emitRecord_ne_marker P i a (activeFieldName P a)⟩

/-- Node used by the C2 witness: branching field holds the scalar 5. -/
def exNodeC2 : SubLevel := { _depth := 0, _idx := "0", subdoc := BVal.doc [("c", BVal.int 5)] }

/-- Parameters for the C2 witness. -/
def exParamsC2 : GDParams := mkParams "c" none 25 [] 100 false

/-- C2 (witness): the theorem applied at a leaf whose branching field is the
scalar 5. -/
theorem C2_step_children_witness :
    ((⟨[], [exNodeC2]⟩ : AccState).subLevelsToInspect.head? = some exNodeC2) ∧
    ((0 = 0 ↔ exNodeC2._depth = 0) ∧ isDocB exNodeC2.subdoc = true ∧
      wfB exNodeC2.subdoc = true) ∧
    ((∀ cs, getField (activeFieldName exParamsC2 exNodeC2) (some exNodeC2.subdoc) =
        some (BVal.arr cs) →
      seqOfDocsB (getField (activeFieldName exParamsC2 exNodeC2) (some exNodeC2.subdoc)) = true ∧
      ((exNodeC2._depth : Int) + 1 ≤ clampMaxDepth exParamsC2.maxDepth →
        stepSubLevels exParamsC2 0 ⟨[], [exNodeC2]⟩ =
          (⟨[], [exNodeC2]⟩ : AccState).subLevelsToInspect.drop 1 ++
          (List.range cs.length).map (fun k =>
            { _depth := exNodeC2._depth + 1
              _idx := exNodeC2._idx ++ "_" ++ Nat.repr k
              subdoc := cs.getD k BVal.null })) ∧
      (¬ ((exNodeC2._depth : Int) + 1 ≤ clampMaxDepth exParamsC2.maxDepth) →
        stepSubLevels exParamsC2 0 ⟨[], [exNodeC2]⟩ =
          (⟨[], [exNodeC2]⟩ : AccState).subLevelsToInspect.drop 1)) ∧
    (seqOfDocsB (getField (activeFieldName exParamsC2 exNodeC2) (some exNodeC2.subdoc)) = false →
      stepSubLevels exParamsC2 0 ⟨[], [exNodeC2]⟩ =
        (⟨[], [exNodeC2]⟩ : AccState).subLevelsToInspect.drop 1 ∧
      (¬ ((0 : Nat) : Int) ≥ exParamsC2.maxElements →
        stepEmission exParamsC2 0 ⟨[], [exNodeC2]⟩ = [emitRecordAt exParamsC2 0 exNodeC2] ∧
        emitRecordAt exParamsC2 0 exNodeC2 ≠ overrunMarker))) :=
  ⟨rfl, ⟨by decide, by decide, by decide⟩,
    C2_step_children exParamsC2 0 ⟨[], [exNodeC2]⟩ exNodeC2 rfl (by decide)
      (by decide) (by decide)⟩

/-- C10: when a visited sub-document itself carries a field named `_ord`,
`_depth` or `_idx` that is neither the branching field the step filters out
nor in the omission set, the sub-document's pair survives the filter, sits
after the metadata pairs in the `$concatArrays` argument, and
`$arrayToObject` keeps the last occurrence of a duplicated key - so the
emitted record's value under that name is the sub-document's own value, not
the traversal metadata. -/
theorem C10_metadata_shadowing (P : GDParams) (i : Nat) (s : AccState) (e : SubLevel)
    (fs : List (String × BVal)) (name : String) (v : BVal)
    (hh : s.subLevelsToInspect.head? = some e)
    (hsub : e.subdoc = BVal.doc fs)
    (hnd : (fs.map Prod.fst).Nodup)
    (hname : name = "_ord" ∨ name = "_depth" ∨ name = "_idx")
    (hv : lookupField name fs = some v)
    (hm : ¬ (i : Int) ≥ P.maxElements)
    (hfn : name ≠ (if (i : Int) ≤ 0 then P.startWith else P.connectToField))
    (ho : name ∉ P.omitFields) :
    stepEmission P i s =
      [BVal.doc (arrayToObject (emitKVs P i e
        (if (i : Int) ≤ 0 then P.startWith else P.connectToField)))] ∧
    getField name (some (BVal.doc (arrayToObject (emitKVs P i e
        (if (i : Int) ≤ 0 then P.startWith else P.connectToField))))) = some v := by
  constructor
  · simp only [stepEmission, hh]
    rw [if_neg hm]
  · rw [getField_doc, lookupField_arrayToObject]
    unfold emitKVs
    rw [lastVal_append]
    have hfil : lastVal name ((objectToArray e.subdoc).filter
        (fun kv => kv.1 ≠ (if (i : Int) ≤ 0 then P.startWith else P.connectToField) ∧
          kv.1 ∉ P.omitFields)) = some v := by
      rw [hsub]
      exact lastVal_filter_nodup name _ P.omitFields v fs hnd hv hfn ho
    rw [hfil]
    rfl

/-- Node for the C10 witness: the sub-document owns an `_ord` field. -/
def exNodeC10 : SubLevel :=
  { _depth := 0, _idx := "0", subdoc := BVal.doc [("_ord", BVal.str "mine"), ("x", BVal.int 1)] }

/-- Parameters for the C10 witness. -/
def exParamsC10 : GDParams := mkParams "c" none 25 [] 100 false

/-- C10 (witness): the theorem applied where the sub-document owns
`_ord = "mine"`; the emitted record indeed shows "mine", not the iteration
index. -/
theorem C10_metadata_shadowing_witness :
    ((⟨[], [exNodeC10]⟩ : AccState).subLevelsToInspect.head? = some exNodeC10 ∧
      lookupField "_ord" [("_ord", BVal.str "mine"), ("x", BVal.int 1)] =
        some (BVal.str "mine")) ∧
    (stepEmission exParamsC10 0 ⟨[], [exNodeC10]⟩ =
      [BVal.doc (arrayToObject (emitKVs exParamsC10 0 exNodeC10
        (if ((0 : Nat) : Int) ≤ 0 then exParamsC10.startWith else exParamsC10.connectToField)))] ∧
    getField "_ord" (some (BVal.doc (arrayToObject (emitKVs exParamsC10 0 exNodeC10
        (if ((0 : Nat) : Int) ≤ 0 then exParamsC10.startWith else exParamsC10.connectToField))))) =
      some (BVal.str "mine")) :=
  ⟨⟨rfl, by decide⟩,
    C10_metadata_shadowing exParamsC10 0 ⟨[], [exNodeC10]⟩ exNodeC10
      [("_ord", BVal.str "mine"), ("x", BVal.int 1)] "_ord" (BVal.str "mine")
      rfl rfl (by decide) (Or.inl rfl) (by decide) (by decide) (by decide) (by decide)⟩

/-- C4: the output contains the single-field overrun marker exactly when the
number of nodes reachable within the clamped maxDepth strictly exceeds
maxElements; when present there is exactly one marker, it is the final
element at iteration index maxElements, and no normal record sits at or
after that index (maxElements = 0 gives the marker and no normal record, as
the witness shows).  The well-formedness hypotheses restrict the statement to
documents of the data model, on which the generated expression cannot
error. -/
theorem C4_overrun_marker (P : GDParams) (root : BVal) (m : Nat)
    (hm : P.maxElements = (m : Int))
    (hd : isDocB root = true) (hw : wfB root = true) :
    (overrunMarker ∈ (graphDescend P root).result ↔ m < totalReachable P root) ∧
    (m < totalReachable P root →
      ((graphDescend P root).result).count overrunMarker = 1 ∧
      ((graphDescend P root).result).length = m + 1 ∧
      ((graphDescend P root).result)[m]? = some overrunMarker) ∧
    (∀ j r, ((graphDescend P root).result)[j]? = some r → r ≠ overrunMarker → j < m) := by
  refine ⟨marker_mem_iff P root m hm, ?_, ?_⟩
  · intro hT
    exact ⟨marker_count_one P root m hm hT, (marker_at_end P root m hm hT).1,
      (marker_at_end P root m hm hT).2⟩
  · intro j r hj hr
    rcases result_elem_inv P root m hm j r hj with ⟨e, _, hjm, _⟩ | ⟨hmark, _, _⟩
    · exact hjm
    · exact absurd hmark hr

/-- Document for the C4 witness. -/
def exDocC4 : BVal := BVal.doc [("a", BVal.int 1)]

/-- Parameters for the C4 witness: maxElements = 0. -/
def exParamsC4 : GDParams := mkParams "c" none 0 [] 100 false

/-- C4 (witness): with maxElements = 0 on a one-node document the result is
the overrun marker alone - no normal records plus the marker. -/
theorem C4_overrun_marker_witness :
    (exParamsC4.maxElements = ((0 : Nat) : Int) ∧ isDocB exDocC4 = true ∧
      wfB exDocC4 = true ∧ 0 < totalReachable exParamsC4 exDocC4 ∧
      (graphDescend exParamsC4 exDocC4).result = [overrunMarker]) ∧
    ((overrunMarker ∈ (graphDescend exParamsC4 exDocC4).result ↔
        0 < totalReachable exParamsC4 exDocC4) ∧
      (0 < totalReachable exParamsC4 exDocC4 →
        ((graphDescend exParamsC4 exDocC4).result).count overrunMarker = 1 ∧
        ((graphDescend exParamsC4 exDocC4).result).length = 0 + 1 ∧
        ((graphDescend exParamsC4 exDocC4).result)[0]? = some overrunMarker) ∧
      (∀ j r, ((graphDescend exParamsC4 exDocC4).result)[j]? = some r →
        r ≠ overrunMarker → j < 0)) :=
  ⟨⟨by decide, by decide, by decide, by decide, by decide⟩,
    C4_overrun_marker exParamsC4 exDocC4 0 (by decide) (by decide) (by decide)⟩

theorem not_reserved_split (f : String) (h : f ∉ reservedNames) :
    f ≠ "_ord" ∧ f ≠ "_depth" ∧ f ≠ "_idx" ∧ f ≠ "schema" := by
  simp only [reservedNames, List.mem_cons, List.not_mem_nil, or_false] at h
  push_neg at h
  exact h

/-- Document for the C5 counterexample. -/
def exDocC5 : BVal := BVal.doc [("x", BVal.int 1)]

/-- Parameters for the C5 counterexample: the omission set names `_ord`. -/
def exParamsC5 : GDParams := mkParams "c" none 25 ["_ord"] 100 false

/-- C5 (counterexample): the claim says no field whose name is in the
omission set appears in an emitted normal record.  But the metadata pairs
are prepended unconditionally - the filter only applies to the
sub-document's own fields - so with omission set `["_ord"]` the lone normal
record still carries an `_ord` field. -/
theorem C5_counterexample :
    "_ord" ∈ exParamsC5.omitFields ∧
    ((graphDescend exParamsC5 exDocC5).result).getD 0 BVal.null ≠ overrunMarker ∧
    getField "_ord" (some (((graphDescend exParamsC5 exDocC5).result).getD 0 BVal.null)) =
      some (BVal.int 0) := by decide

/-- C5 (amended): provided the omission set and both branching-field names
avoid the metadata names (`_ord`, `_depth`, `_idx`, `schema`), every emitted
normal record omits every omission-set field and the branching field active
at its node's depth - the root branching field exactly for the depth-0
record (which is the record of iteration 0, as the code's index test
requires), the inner branching field for every deeper record - while any
other sub-document field survives with its value. -/
theorem C5_field_omission (P : GDParams) (root : BVal) (m : Nat)
    (hm : P.maxElements = (m : Int))
    (hd : isDocB root = true) (hw : wfB root = true)
    (hsw : P.startWith ∉ reservedNames) (hcf : P.connectToField ∉ reservedNames)
    (homi : ∀ f ∈ P.omitFields, f ∉ reservedNames) :
    ∀ j r e, ((graphDescend P root).result)[j]? = some r →
      (bfsEnum P root)[j]? = some e → j < m →
      ((∀ f ∈ P.omitFields, getField f (some r) = none) ∧
       getField (activeFieldName P e) (some r) = none ∧
       (j = 0 ↔ e._depth = 0) ∧
       (∀ f w, f ≠ activeFieldName P e → f ∉ P.omitFields → f ∉ reservedNames →
         lookupField f (objectToArray e.subdoc) = some w →
         ((objectToArray e.subdoc).map Prod.fst).Nodup →
         getField f (some r) = some w)) := by
  intro j r e hjr hje hjm
  have hjT : j < totalReachable P root := (List.getElem?_eq_some.mp hje).1
  have hr : r = emitRecordAt P j e := by
    rcases result_elem_inv P root m hm j r hjr with ⟨e2, hje2, _, hre⟩ | ⟨_, hmin, hTm⟩
    · rw [hje] at hje2
      injection hje2 with h2
      rw [hre, h2]
    · omega
  subst hr
  have hact : activeFieldName P e ∉ reservedNames := by
    unfold activeFieldName
    by_cases hdep : e._depth = 0
    · rw [if_pos hdep]; exact hsw
    · rw [if_neg hdep]; exact hcf
  refine ⟨?_, ?_, ?_, ?_⟩
  · intro f hf
    obtain ⟨h1, h2, h3, h4⟩ := not_reserved_split f (homi f hf)
    rw [getField_emitRecordAt, lastVal_emitKVs_data P j e _ f h1 h2 h3 h4]
    apply lastVal_filter_of_key_none
    intro kv _ hkv habs
    rw [habs] at hkv
    exact hkv.2 hf
  · obtain ⟨h1, h2, h3, h4⟩ := not_reserved_split _ hact
    rw [getField_emitRecordAt, lastVal_emitKVs_data P j e _ _ h1 h2 h3 h4]
    apply lastVal_filter_of_key_none
    intro kv _ hkv habs
    exact hkv.1 habs
  · constructor
    · intro hj0
      rw [hj0] at hje
      rw [bfsEnum_zero P root e hje]
      rfl
    · intro hdep
      by_contra hj0
      have : 1 ≤ e._depth := bfsEnum_pos_depth P root j e hje (by omega)
      omega
  · intro f w hfn hfo hfr hlv hnd
    obtain ⟨h1, h2, h3, h4⟩ := not_reserved_split f hfr
    rw [getField_emitRecordAt, lastVal_emitKVs_data P j e _ f h1 h2 h3 h4]
    exact lastVal_filter_nodup f _ P.omitFields w _ hnd hlv hfn hfo

/-- Document for the C5 witness. -/
def exDocC5w : BVal :=
  BVal.doc [("a", BVal.int 1), ("secret", BVal.int 2),
    ("top", BVal.arr [BVal.doc [("b", BVal.int 3), ("kids", BVal.int 5),
      ("top", BVal.int 7)]])]

/-- Parameters for the C5 witness. -/
def exParamsC5w : GDParams := mkParams "kids" (some "top") 25 ["secret"] 100 false

/-- C5 (witness): the amended statement on a two-node document with distinct
root and inner branching fields and omission set `["secret"]`. -/
theorem C5_field_omission_witness :
    (exParamsC5w.maxElements = ((25 : Nat) : Int) ∧
      isDocB exDocC5w = true ∧ wfB exDocC5w = true ∧
      exParamsC5w.startWith ∉ reservedNames ∧
      exParamsC5w.connectToField ∉ reservedNames ∧
      (∀ f ∈ exParamsC5w.omitFields, f ∉ reservedNames)) ∧
    (∀ j r e, ((graphDescend exParamsC5w exDocC5w).result)[j]? = some r →
      (bfsEnum exParamsC5w exDocC5w)[j]? = some e → j < 25 →
      ((∀ f ∈ exParamsC5w.omitFields, getField f (some r) = none) ∧
       getField (activeFieldName exParamsC5w e) (some r) = none ∧
       (j = 0 ↔ e._depth = 0) ∧
       (∀ f w, f ≠ activeFieldName exParamsC5w e → f ∉ exParamsC5w.omitFields →
         f ∉ reservedNames →
         lookupField f (objectToArray e.subdoc) = some w →
         ((objectToArray e.subdoc).map Prod.fst).Nodup →
         getField f (some r) = some w))) :=
  ⟨⟨by decide, by decide, by decide, by decide, by decide, by decide⟩,
    C5_field_omission exParamsC5w exDocC5w 25 (by decide) (by decide) (by decide)
      (by decide) (by decide) (by decide)⟩

/-- Document for the C6 counterexample: owns a `_depth` field. -/
def exDocC6 : BVal := BVal.doc [("_depth", BVal.int 101)]

/-- Parameters for the C6 counterexample: maxDepth 150 clamps to 100. -/
def exParamsC6 : GDParams := mkParams "c" none 25 [] 150 false

/-- C6 (counterexample): maxDepth 150 is clamped to 100, yet the emitted
depth-0 record reports `_depth = 101`: the sub-document's own `_depth` field
shadows the traversal metadata (last duplicate key wins in
`$arrayToObject`), so "no emitted record has depth greater than the clamped
maxDepth" fails as a statement about the records' `_depth` values. -/
theorem C6_counterexample :
    clampMaxDepth exParamsC6.maxDepth = 100 ∧
    ((graphDescend exParamsC6 exDocC6).result).getD 0 BVal.null ≠ overrunMarker ∧
    getField "_depth" (some (((graphDescend exParamsC6 exDocC6).result).getD 0 BVal.null)) =
      some (BVal.int 101) ∧
    ¬ ((101 : Int) ≤ clampMaxDepth exParamsC6.maxDepth) := by decide

/-- C6 (amended): any maxDepth outside [0, 100] - including every negative
value - is silently replaced by 100; and provided no sub-document reuses the
metadata field names, no emitted record's `_depth` exceeds the clamped
maxDepth, while every enumerated node within the element budget - including
those at exactly the clamped depth - is still emitted with its depth. -/
theorem C6_depth_clamp (P : GDParams) (root : BVal) (m : Nat)
    (hm : P.maxElements = (m : Int))
    (hd : isDocB root = true) (hw : wfB root = true)
    (hmf : metaFreeB root = true) :
    (∀ md : Int, (md < 0 ∨ md > 100) → clampMaxDepth md = 100) ∧
    (∀ (j : Nat) (r : BVal) (d : Int), ((graphDescend P root).result)[j]? = some r →
      getField "_depth" (some r) = some (BVal.int d) → d ≤ clampMaxDepth P.maxDepth) ∧
    (∀ (j : Nat) (e : SubLevel), j < m → (bfsEnum P root)[j]? = some e →
      ((graphDescend P root).result)[j]? = some (emitRecordAt P j e) ∧
      getField "_depth" (some (emitRecordAt P j e)) = some (BVal.int e._depth)) := by
  refine ⟨?_, ?_, ?_⟩
  · intro md h
    unfold clampMaxDepth
    rw [if_pos h]
  · intro j r d hjr hdep
    rcases result_elem_inv P root m hm j r hjr with ⟨e, hje, _, hre⟩ | ⟨hmark, _, _⟩
    · have hmem : e ∈ bfsEnum P root := by
        have h2 := List.getElem?_eq_some.mp hje
        obtain ⟨hlt, he⟩ := h2
        exact he ▸ List.getElem_mem hlt
      have hemf : metaFreeB e.subdoc = true := bfsEnum_mf P root hmf e hmem
      rw [hre, enum_record_depth P j e hemf] at hdep
      injection hdep with h2
      have hd2 : d = (e._depth : Int) := by injection h2.symm
      have hb := bfsEnum_depth_le P root e hmem
      have hc := clampMaxDepth_cast P.maxDepth
      omega
    · rw [hmark, getField_marker] at hdep
      rw [if_neg (by decide)] at hdep
      cases hdep
  · intro j e hjm hje
    have hmem : e ∈ bfsEnum P root := by
      have h2 := List.getElem?_eq_some.mp hje
      obtain ⟨hlt, he⟩ := h2
      exact he ▸ List.getElem_mem hlt
    exact ⟨result_getElem?_normal P root m hm j e hjm hje,
      enum_record_depth P j e (bfsEnum_mf P root hmf e hmem)⟩

/-- Document for the C6 witness: one child at depth exactly the clamp. -/
def exDocC6w : BVal := BVal.doc [("c", BVal.arr [BVal.doc [("z", BVal.int 9)]])]

/-- Parameters for the C6 witness: maxDepth = 1. -/
def exParamsC6w : GDParams := mkParams "c" none 25 [] 1 false

/-- C6 (witness): the amended statement on a document whose child sits at
depth exactly the clamped maxDepth (1) and is still emitted. -/
theorem C6_depth_clamp_witness :
    (exParamsC6w.maxElements = ((25 : Nat) : Int) ∧ isDocB exDocC6w = true ∧
      wfB exDocC6w = true ∧ metaFreeB exDocC6w = true ∧
      clampMaxDepth exParamsC6w.maxDepth = 1 ∧
      getField "_depth" (some (((graphDescend exParamsC6w exDocC6w).result).getD 1 BVal.null)) =
        some (BVal.int 1)) ∧
    ((∀ md : Int, (md < 0 ∨ md > 100) → clampMaxDepth md = 100) ∧
     (∀ (j : Nat) (r : BVal) (d : Int), ((graphDescend exParamsC6w exDocC6w).result)[j]? = some r →
       getField "_depth" (some r) = some (BVal.int d) →
       d ≤ clampMaxDepth exParamsC6w.maxDepth) ∧
     (∀ (j : Nat) (e : SubLevel), j < 25 → (bfsEnum exParamsC6w exDocC6w)[j]? = some e →
       ((graphDescend exParamsC6w exDocC6w).result)[j]? =
         some (emitRecordAt exParamsC6w j e) ∧
       getField "_depth" (some (emitRecordAt exParamsC6w j e)) =
         some (BVal.int e._depth))) :=
  ⟨⟨by decide, by decide, by decide, by decide, by decide, by decide⟩,
    C6_depth_clamp exParamsC6w exDocC6w 25 (by decide) (by decide) (by decide)
      (by decide)⟩

theorem result_normal_inv (P : GDParams) (root : BVal) (m : Nat)
    (hm : P.maxElements = (m : Int)) (j : Nat) (r : BVal)
    (hjr : ((graphDescend P root).result)[j]? = some r) (hr : r ≠ overrunMarker) :
    ∃ e, (bfsEnum P root)[j]? = some e ∧ j < m ∧ r = emitRecordAt P j e := by
  rcases result_elem_inv P root m hm j r hjr with h | ⟨hmark, _, _⟩
  · exact h
  · exact absurd hmark hr

theorem result_normal_fields (P : GDParams) (root : BVal) (m : Nat)
    (hm : P.maxElements = (m : Int)) (hmf : metaFreeB root = true) (j : Nat) (r : BVal)
    (hjr : ((graphDescend P root).result)[j]? = some r) (hr : r ≠ overrunMarker) :
    ∃ e, (bfsEnum P root)[j]? = some e ∧ j < m ∧ r = emitRecordAt P j e ∧
      getField "_ord" (some r) = some (BVal.int j) ∧
      getField "_depth" (some r) = some (BVal.int e._depth) ∧
      getField "_idx" (some r) = some (BVal.str e._idx) := by
  obtain ⟨e, hje, hjm, hre⟩ := result_normal_inv P root m hm j r hjr hr
  have hmem : e ∈ bfsEnum P root := by
    obtain ⟨hlt, he⟩ := List.getElem?_eq_some.mp hje
    exact he ▸ List.getElem_mem hlt
  have hemf : metaFreeB e.subdoc = true := bfsEnum_mf P root hmf e hmem
  exact ⟨e, hje, hjm, hre, hre ▸ enum_record_ord P j e hemf,
    hre ▸ enum_record_depth P j e hemf, hre ▸ enum_record_idx P j e hemf⟩

theorem marker_no_meta :
    getField "_ord" (some overrunMarker) = none ∧
    getField "_depth" (some overrunMarker) = none ∧
    getField "_idx" (some overrunMarker) = none := by decide

/-- Document for the C8 counterexample: owns an `_ord` field. -/
def exDocC8 : BVal := BVal.doc [("_ord", BVal.str "x")]

/-- Parameters for the C8 counterexample. -/
def exParamsC8 : GDParams := mkParams "c" none 25 [] 100 false

/-- C8 (counterexample): the single emitted normal record carries
`_ord = "x"` - the sub-document's own `_ord` field shadows the iteration
index - so the `_ord` values do not form the contiguous sequence 0, 1, 2,
... -/
theorem C8_counterexample :
    ((graphDescend exParamsC8 exDocC8).result).length = 1 ∧
    ((graphDescend exParamsC8 exDocC8).result).getD 0 BVal.null ≠ overrunMarker ∧
    getField "_ord" (some (((graphDescend exParamsC8 exDocC8).result).getD 0 BVal.null)) =
      some (BVal.str "x") ∧
    some (BVal.str "x") ≠ some (BVal.int 0) := by decide

/-- C8 (amended): provided no sub-document reuses the metadata field names,
every normal record's `_ord` equals its 0-based position - the contiguous
sequence 0, 1, 2, ... - the overrun marker (when present) sits right after
them at position maxElements, and once the worklist is exhausted at some
step no element is emitted at that step or later. -/
theorem C8_order_contiguous (P : GDParams) (root : BVal) (m : Nat)
    (hm : P.maxElements = (m : Int))
    (hd : isDocB root = true) (hw : wfB root = true)
    (hmf : metaFreeB root = true) :
    (∀ (j : Nat) (r : BVal), ((graphDescend P root).result)[j]? = some r →
      r ≠ overrunMarker → getField "_ord" (some r) = some (BVal.int j)) ∧
    (m < totalReachable P root →
      ((graphDescend P root).result).length = m + 1 ∧
      ((graphDescend P root).result)[m]? = some overrunMarker) ∧
    (∀ j : Nat, queueRest P j [rootNode root] = [] →
      ((graphDescend P root).result).length ≤ j) := by
  refine ⟨?_, ?_, ?_⟩
  · intro j r hjr hr
    obtain ⟨e, _, _, _, hord, _, _⟩ := result_normal_fields P root m hm hmf j r hjr hr
    exact hord
  · intro hT
    exact marker_at_end P root m hm hT
  · intro j hempty
    have hTj : totalReachable P root ≤ j := (bfsEnum_rest_iff P root j).mp hempty
    have hlen := result_length P root m hm
    by_cases hTm : totalReachable P root ≤ m
    · rw [hlen, if_pos hTm]
      omega
    · rw [hlen, if_neg hTm]
      omega

/-- Document for the C8 witness: two children, budget one. -/
def exDocC8w : BVal := BVal.doc [("c", BVal.arr [BVal.doc [], BVal.doc []])]

/-- Parameters for the C8 witness. -/
def exParamsC8w : GDParams := mkParams "c" none 1 [] 100 false

/-- C8 (witness): the amended statement where the budget is exceeded: record
0 carries `_ord = 0` and the marker sits at position 1. -/
theorem C8_order_contiguous_witness :
    (exParamsC8w.maxElements = ((1 : Nat) : Int) ∧ isDocB exDocC8w = true ∧
      wfB exDocC8w = true ∧ metaFreeB exDocC8w = true ∧
      1 < totalReachable exParamsC8w exDocC8w) ∧
    ((∀ (j : Nat) (r : BVal), ((graphDescend exParamsC8w exDocC8w).result)[j]? = some r →
      r ≠ overrunMarker → getField "_ord" (some r) = some (BVal.int j)) ∧
    (1 < totalReachable exParamsC8w exDocC8w →
      ((graphDescend exParamsC8w exDocC8w).result).length = 1 + 1 ∧
      ((graphDescend exParamsC8w exDocC8w).result)[1]? = some overrunMarker) ∧
    (∀ j : Nat, queueRest exParamsC8w j [rootNode exDocC8w] = [] →
      ((graphDescend exParamsC8w exDocC8w).result).length ≤ j)) :=
  ⟨⟨by decide, by decide, by decide, by decide, by decide⟩,
    C8_order_contiguous exParamsC8w exDocC8w 1 (by decide) (by decide) (by decide)
      (by decide)⟩

/-- Document for the C7 counterexample: root and child both own `_idx`. -/
def exDocC7 : BVal :=
  BVal.doc [("_idx", BVal.str "dup"),
    ("c", BVal.arr [BVal.doc [("_idx", BVal.str "dup")]])]

/-- Parameters for the C7 counterexample. -/
def exParamsC7 : GDParams := mkParams "c" none 25 [] 100 false

/-- C7 (counterexample): both emitted records report `_idx = "dup"` - the
sub-documents' own `_idx` fields shadow the traversal paths - so the emitted
path values are neither pairwise distinct nor is the root record's path
"0". -/
theorem C7_counterexample :
    ((graphDescend exParamsC7 exDocC7).result).length = 2 ∧
    ((graphDescend exParamsC7 exDocC7).result).getD 0 BVal.null ≠ overrunMarker ∧
    ((graphDescend exParamsC7 exDocC7).result).getD 1 BVal.null ≠ overrunMarker ∧
    getField "_idx" (some (((graphDescend exParamsC7 exDocC7).result).getD 0 BVal.null)) =
      some (BVal.str "dup") ∧
    getField "_idx" (some (((graphDescend exParamsC7 exDocC7).result).getD 1 BVal.null)) =
      some (BVal.str "dup") ∧
    ("dup" : String) ≠ "0" := by decide

/-- C7 (amended): provided no sub-document reuses the metadata field names,
the emitted `_idx` values are pairwise distinct, the depth-0 record's path is
"0", and every enumerated node other than the root descends from a parent
node in the enumeration, its path being the parent's path plus `_` plus the
child's 0-based position in the parent's branching-field array. -/
theorem C7_path_unique (P : GDParams) (root : BVal) (m : Nat)
    (hm : P.maxElements = (m : Int))
    (hd : isDocB root = true) (hw : wfB root = true)
    (hmf : metaFreeB root = true) :
    (∀ (j1 j2 : Nat) (r1 r2 : BVal) (s1 s2 : String),
      ((graphDescend P root).result)[j1]? = some r1 →
      ((graphDescend P root).result)[j2]? = some r2 →
      getField "_idx" (some r1) = some (BVal.str s1) →
      getField "_idx" (some r2) = some (BVal.str s2) →
      j1 ≠ j2 → s1 ≠ s2) ∧
    (∀ r : BVal, ((graphDescend P root).result)[0]? = some r → r ≠ overrunMarker →
      getField "_idx" (some r) = some (BVal.str "0")) ∧
    (∀ (j : Nat) (r : BVal), ((graphDescend P root).result)[j]? = some r →
      r ≠ overrunMarker →
      ∃ e, (bfsEnum P root)[j]? = some e ∧
        getField "_idx" (some r) = some (BVal.str e._idx) ∧
        (e = rootNode root ∨ ∃ p ∈ bfsEnum P root, ∃ cs k,
          getField (activeFieldName P p) (some p.subdoc) = some (BVal.arr cs) ∧
          k < cs.length ∧ e._idx = p._idx ++ "_" ++ Nat.repr k ∧
          e._depth = p._depth + 1 ∧ e.subdoc = cs.getD k BVal.null)) := by
  refine ⟨?_, ?_, ?_⟩
  · intro j1 j2 r1 r2 s1 s2 h1 h2 hs1 hs2 hne
    have hr1 : r1 ≠ overrunMarker := by
      intro habs
      rw [habs, marker_no_meta.2.2] at hs1
      cases hs1
    have hr2 : r2 ≠ overrunMarker := by
      intro habs
      rw [habs, marker_no_meta.2.2] at hs2
      cases hs2
    obtain ⟨e1, hje1, _, _, _, _, hidx1⟩ :=
      result_normal_fields P root m hm hmf j1 r1 h1 hr1
    obtain ⟨e2, hje2, _, _, _, _, hidx2⟩ :=
      result_normal_fields P root m hm hmf j2 r2 h2 hr2
    have hs1e : s1 = e1._idx := by
      rw [hidx1] at hs1
      injection hs1 with h3
      injection h3.symm
    have hs2e : s2 = e2._idx := by
      rw [hidx2] at hs2
      injection hs2 with h3
      injection h3.symm
    obtain ⟨hl1, hg1⟩ := List.getElem?_eq_some.mp hje1
    obtain ⟨hl2, hg2⟩ := List.getElem?_eq_some.mp hje2
    have hpw := bfsEnum_pairwise_idx P root
    rw [List.pairwise_iff_getElem] at hpw
    rcases Nat.lt_or_ge j1 j2 with hlt | hge
    · have := hpw j1 j2 hl1 hl2 hlt
      rw [hg1, hg2] at this
      rw [hs1e, hs2e]
      exact this
    · have hlt2 : j2 < j1 := by omega
      have := hpw j2 j1 hl2 hl1 hlt2
      rw [hg1, hg2] at this
      rw [hs1e, hs2e]
      exact fun habs => this habs.symm
  · intro r h0 hr
    obtain ⟨e, hje, _, _, _, _, hidx⟩ :=
      result_normal_fields P root m hm hmf 0 r h0 hr
    rw [bfsEnum_zero P root e hje] at hidx
    exact hidx
  · intro j r hjr hr
    obtain ⟨e, hje, _, _, _, _, hidx⟩ :=
      result_normal_fields P root m hm hmf j r hjr hr
    refine ⟨e, hje, hidx, ?_⟩
    have hmem : e ∈ bfsEnum P root := by
      obtain ⟨hlt, hg⟩ := List.getElem?_eq_some.mp hje
      exact hg ▸ List.getElem_mem hlt
    rcases bfsEnum_parent P root e hmem with hroot | ⟨p, hp, hcp⟩
    · exact Or.inl hroot
    · rw [specChildren, mem_childNodes] at hcp
      obtain ⟨cs, k, hg, _, hk, he⟩ := hcp
      refine Or.inr ⟨p, hp, cs, k, hg, hk, ?_, ?_, ?_⟩ <;> rw [he]

/-- Document for the C7 witness: two levels with distinct branching fields. -/
def exDocC7w : BVal :=
  BVal.doc [("p", BVal.arr [BVal.doc [("c", BVal.arr [BVal.doc []])],
    BVal.doc []])]

/-- Parameters for the C7 witness. -/
def exParamsC7w : GDParams := mkParams "c" (some "p") 25 [] 100 false

/-- C7 (witness): the amended statement on a three-node document. -/
theorem C7_path_unique_witness :
    (exParamsC7w.maxElements = ((25 : Nat) : Int) ∧ isDocB exDocC7w = true ∧
      wfB exDocC7w = true ∧ metaFreeB exDocC7w = true ∧
      ((graphDescend exParamsC7w exDocC7w).result).map
        (fun r => getField "_idx" (some r)) =
        [some (BVal.str "0"), some (BVal.str "0_0"), some (BVal.str "0_1"),
          some (BVal.str "0_0_0")]) ∧
    ((∀ (j1 j2 : Nat) (r1 r2 : BVal) (s1 s2 : String),
      ((graphDescend exParamsC7w exDocC7w).result)[j1]? = some r1 →
      ((graphDescend exParamsC7w exDocC7w).result)[j2]? = some r2 →
      getField "_idx" (some r1) = some (BVal.str s1) →
      getField "_idx" (some r2) = some (BVal.str s2) →
      j1 ≠ j2 → s1 ≠ s2) ∧
    (∀ r : BVal, ((graphDescend exParamsC7w exDocC7w).result)[0]? = some r →
      r ≠ overrunMarker → getField "_idx" (some r) = some (BVal.str "0")) ∧
    (∀ (j : Nat) (r : BVal), ((graphDescend exParamsC7w exDocC7w).result)[j]? = some r →
      r ≠ overrunMarker →
      ∃ e, (bfsEnum exParamsC7w exDocC7w)[j]? = some e ∧
        getField "_idx" (some r) = some (BVal.str e._idx) ∧
        (e = rootNode exDocC7w ∨ ∃ p ∈ bfsEnum exParamsC7w exDocC7w, ∃ cs k,
          getField (activeFieldName exParamsC7w p) (some p.subdoc) =
            some (BVal.arr cs) ∧
          k < cs.length ∧ e._idx = p._idx ++ "_" ++ Nat.repr k ∧
          e._depth = p._depth + 1 ∧ e.subdoc = cs.getD k BVal.null))) :=
  ⟨⟨by decide, by decide, by decide, by decide, by decide⟩,
    C7_path_unique exParamsC7w exDocC7w 25 (by decide) (by decide) (by decide)
      (by decide)⟩

/-- Document for the C9 counterexample: owns a `schema` field. -/
def exDocC9 : BVal := BVal.doc [("schema", BVal.int 5)]

/-- Parameters for the C9 counterexample: showSchema on. -/
def exParamsC9 : GDParams := mkParams "c" none 25 [] 100 true

/-- C9 (counterexample): with showSchema on, the record's `schema` field is
the sub-document's own value 5 (last duplicate key wins), not the list of
{fieldname, type} pairs the claim promises. -/
theorem C9_counterexample :
    ((graphDescend exParamsC9 exDocC9).result).getD 0 BVal.null ≠ overrunMarker ∧
    getField "schema" (some (((graphDescend exParamsC9 exDocC9).result).getD 0 BVal.null)) =
      some (BVal.int 5) ∧
    some (BVal.int 5) ≠ some (schemaVal exDocC9) := by decide

/-- C9 (amended): with showSchema on, provided no sub-document reuses the
metadata field names, every normal record carries a `schema` field holding
one {fieldname, type-tag} pair per field of the raw sub-document - computed
before filtering, so omitted fields and the branching field still appear in
it. -/
theorem C9_schema (P : GDParams) (root : BVal) (m : Nat)
    (hm : P.maxElements = (m : Int))
    (hd : isDocB root = true) (hw : wfB root = true)
    (hmf : metaFreeB root = true) (hs : P.showSchema = true) :
    ∀ (j : Nat) (r : BVal) (e : SubLevel),
      ((graphDescend P root).result)[j]? = some r → r ≠ overrunMarker →
      (bfsEnum P root)[j]? = some e →
      ∃ fs, e.subdoc = BVal.doc fs ∧
        getField "schema" (some r) = some (BVal.arr (fs.map (fun kv =>
          BVal.doc [("fieldname", BVal.str kv.1),
            ("type", BVal.str (typeName kv.2))]))) := by
  intro j r e hjr hr hje
  obtain ⟨e2, hje2, hjm, hre⟩ := result_normal_inv P root m hm j r hjr hr
  rw [hje] at hje2
  have he2 : e2 = e := (Option.some.inj hje2).symm
  rw [he2] at hre
  have hmem : e ∈ bfsEnum P root := by
    obtain ⟨hlt, hg⟩ := List.getElem?_eq_some.mp hje
    exact hg ▸ List.getElem_mem hlt
  obtain ⟨fs, hfs⟩ := (isDocB_iff e.subdoc).mp (bfsEnum_wf P root hd hw e hmem).1
  have hemf : metaFreeB e.subdoc = true := bfsEnum_mf P root hmf e hmem
  refine ⟨fs, hfs, ?_⟩
  rw [hre, getField_record_schema P j e hs
    (fun kv hkv => (metaFree_keys e.subdoc hemf kv hkv).2.2.2)]
  rw [hfs]
  rfl

/-- Document for the C9 witness: its only data field is also omitted. -/
def exDocC9w : BVal := BVal.doc [("val", BVal.int 7)]

/-- Parameters for the C9 witness: showSchema on, `val` omitted. -/
def exParamsC9w : GDParams := mkParams "c" none 25 ["val"] 100 true

/-- C9 (witness): the schema still lists the omitted field `val` with its
type, even though `val` is removed from the record's data fields. -/
theorem C9_schema_witness :
    (exParamsC9w.maxElements = ((25 : Nat) : Int) ∧ isDocB exDocC9w = true ∧
      wfB exDocC9w = true ∧ metaFreeB exDocC9w = true ∧
      exParamsC9w.showSchema = true ∧
      getField "schema"
        (some (((graphDescend exParamsC9w exDocC9w).result).getD 0 BVal.null)) =
        some (BVal.arr [BVal.doc [("fieldname", BVal.str "val"),
          ("type", BVal.str "int")]]) ∧
      getField "val"
        (some (((graphDescend exParamsC9w exDocC9w).result).getD 0 BVal.null)) = none) ∧
    (∀ (j : Nat) (r : BVal) (e : SubLevel),
      ((graphDescend exParamsC9w exDocC9w).result)[j]? = some r →
      r ≠ overrunMarker → (bfsEnum exParamsC9w exDocC9w)[j]? = some e →
      ∃ fs, e.subdoc = BVal.doc fs ∧
        getField "schema" (some r) = some (BVal.arr (fs.map (fun kv =>
          BVal.doc [("fieldname", BVal.str kv.1),
            ("type", BVal.str (typeName kv.2))])))) :=
  ⟨⟨by decide, by decide, by decide, by decide, by decide, by decide, by decide⟩,
    C9_schema exParamsC9w exDocC9w 25 (by decide) (by decide) (by decide)
      (by decide) (by decide)⟩

/-- Document for the C3 counterexample: the root owns a `_depth` field. -/
def exDocC3 : BVal :=
  BVal.doc [("_depth", BVal.int 99), ("c", BVal.arr [BVal.doc []])]

/-- Parameters for the C3 counterexample. -/
def exParamsC3 : GDParams := mkParams "c" none 25 [] 100 false

/-- C3 (counterexample): the record emitted second reports `_depth = 1` and
`_ord = 1`, the record emitted first reports `_depth = 99` (the root's own
`_depth` field shadows the metadata) and `_ord = 0`: a pair of emitted
records with `a.depth < b.depth` but not `a.order < b.order`, refuting the
claimed breadth-first property of the record fields. -/
theorem C3_counterexample :
    getField "_depth" (some (((graphDescend exParamsC3 exDocC3).result).getD 1 BVal.null)) =
      some (BVal.int 1) ∧
    getField "_depth" (some (((graphDescend exParamsC3 exDocC3).result).getD 0 BVal.null)) =
      some (BVal.int 99) ∧
    getField "_ord" (some (((graphDescend exParamsC3 exDocC3).result).getD 1 BVal.null)) =
      some (BVal.int 1) ∧
    getField "_ord" (some (((graphDescend exParamsC3 exDocC3).result).getD 0 BVal.null)) =
      some (BVal.int 0) ∧
    ((graphDescend exParamsC3 exDocC3).result).getD 1 BVal.null ∈
      (graphDescend exParamsC3 exDocC3).result ∧
    ((graphDescend exParamsC3 exDocC3).result).getD 0 BVal.null ∈
      (graphDescend exParamsC3 exDocC3).result ∧
    ((1 : Int) < 99 ∧ ¬ ((1 : Int) < 0)) := by decide

/-- C3 (amended): provided no sub-document reuses the metadata field names,
the emitted records are in strict breadth-first order: whenever record `a`
reports a smaller `_depth` than record `b`, `a` reports a smaller `_ord`;
and the list of normal records equals the emitted prefix of the level-order
enumeration `bfsEnum` - whose levels list each parent's children in array
order and parents in processing order - so within one depth records appear
in sibling order and across parents in parent order. -/
theorem C3_breadth_first (P : GDParams) (root : BVal) (m : Nat)
    (hm : P.maxElements = (m : Int))
    (hd : isDocB root = true) (hw : wfB root = true)
    (hmf : metaFreeB root = true) :
    (∀ (a b : BVal) (da db oa ob : Int),
      a ∈ (graphDescend P root).result → b ∈ (graphDescend P root).result →
      getField "_depth" (some a) = some (BVal.int da) →
      getField "_depth" (some b) = some (BVal.int db) →
      getField "_ord" (some a) = some (BVal.int oa) →
      getField "_ord" (some b) = some (BVal.int ob) →
      da < db → oa < ob) ∧
    ((graphDescend P root).result = emitFrom P 0 ((bfsEnum P root).take m) ++
      (if totalReachable P root ≤ m then [] else [overrunMarker])) := by
  constructor
  · intro a b da db oa ob ha hb hda hdb hoa hob hdab
    obtain ⟨j1, hj1lt, hj1⟩ := List.getElem_of_mem ha
    obtain ⟨j2, hj2lt, hj2⟩ := List.getElem_of_mem hb
    have hja : ((graphDescend P root).result)[j1]? = some a := by
      rw [List.getElem?_eq_getElem hj1lt, hj1]
    have hjb : ((graphDescend P root).result)[j2]? = some b := by
      rw [List.getElem?_eq_getElem hj2lt, hj2]
    have hra : a ≠ overrunMarker := by
      intro habs
      rw [habs, marker_no_meta.2.1] at hda
      cases hda
    have hrb : b ≠ overrunMarker := by
      intro habs
      rw [habs, marker_no_meta.2.1] at hdb
      cases hdb
    obtain ⟨e1, hje1, _, _, hoa1, hda1, _⟩ :=
      result_normal_fields P root m hm hmf j1 a hja hra
    obtain ⟨e2, hje2, _, _, hob2, hdb2, _⟩ :=
      result_normal_fields P root m hm hmf j2 b hjb hrb
    have hda2 : da = (e1._depth : Int) := by
      rw [hda1] at hda
      injection hda with h3
      injection h3.symm
    have hdb3 : db = (e2._depth : Int) := by
      rw [hdb2] at hdb
      injection hdb with h3
      injection h3.symm
    have hoa2 : oa = (j1 : Int) := by
      rw [hoa1] at hoa
      injection hoa with h3
      injection h3.symm
    have hob3 : ob = (j2 : Int) := by
      rw [hob2] at hob
      injection hob with h3
      injection h3.symm
    have hdepth : e1._depth < e2._depth := by
      rw [hda2, hdb3] at hdab
      exact_mod_cast hdab
    obtain ⟨hl1, hg1⟩ := List.getElem?_eq_some.mp hje1
    obtain ⟨hl2, hg2⟩ := List.getElem?_eq_some.mp hje2
    have hpw := bfsEnum_pairwise_depth P root
    rw [List.pairwise_iff_getElem] at hpw
    have hj12 : j1 < j2 := by
      by_contra hge
      push_neg at hge
      rcases Nat.lt_or_ge j2 j1 with hlt | hge2
      · have := hpw j2 j1 hl2 hl1 hlt
        rw [hg1, hg2] at this
        omega
      · have hj12e : j1 = j2 := by omega
        rw [hj12e] at hje1
        rw [hje2] at hje1
        have he12 : e2 = e1 := Option.some.inj hje1
        rw [he12] at hdepth
        omega
    rw [hoa2, hob3]
    exact_mod_cast hj12
  · rw [graphDescend_bfs P root m hm]

/-- Document for the C3 witness: two subtrees of different sizes. -/
def exDocC3w : BVal :=
  BVal.doc [("p", BVal.arr [BVal.doc [("c", BVal.arr [BVal.doc []])],
    BVal.doc [("c", BVal.arr [BVal.doc [], BVal.doc []])]])]

/-- Parameters for the C3 witness. -/
def exParamsC3w : GDParams := mkParams "c" (some "p") 25 [] 100 false

/-- C3 (witness): the amended statement on a six-node, three-level document. -/
theorem C3_breadth_first_witness :
    (exParamsC3w.maxElements = ((25 : Nat) : Int) ∧ isDocB exDocC3w = true ∧
      wfB exDocC3w = true ∧ metaFreeB exDocC3w = true ∧
      ((graphDescend exParamsC3w exDocC3w).result).map
        (fun r => getField "_depth" (some r)) =
        [some (BVal.int 0), some (BVal.int 1), some (BVal.int 1),
          some (BVal.int 2), some (BVal.int 2), some (BVal.int 2)]) ∧
    ((∀ (a b : BVal) (da db oa ob : Int),
      a ∈ (graphDescend exParamsC3w exDocC3w).result →
      b ∈ (graphDescend exParamsC3w exDocC3w).result →
      getField "_depth" (some a) = some (BVal.int da) →
      getField "_depth" (some b) = some (BVal.int db) →
      getField "_ord" (some a) = some (BVal.int oa) →
      getField "_ord" (some b) = some (BVal.int ob) →
      da < db → oa < ob) ∧
    ((graphDescend exParamsC3w exDocC3w).result =
      emitFrom exParamsC3w 0 ((bfsEnum exParamsC3w exDocC3w).take 25) ++
      (if totalReachable exParamsC3w exDocC3w ≤ 25 then [] else [overrunMarker]))) :=
  ⟨⟨by decide, by decide, by decide, by decide, by decide⟩,
    C3_breadth_first exParamsC3w exDocC3w 25 (by decide) (by decide) (by decide)
      (by decide)⟩
